import Mathlib

/-!
Verification development for the promissory-arbiter publish/subscribe broker
(`src/promissory-arbiter.js`).  The JavaScript source is shallowly embedded:
pure helper functions become Lean functions, the broker state is passed
explicitly, JS numbers used as ids, priorities and persistence orders are
modelled as `Int`, the latch ratio as `ℚ`, and the special values `undefined`
and `Infinity` that flow through comparisons are modelled with `Option`
wrappers whose comparison functions mirror IEEE semantics (`undefined`
comparisons are false; `Infinity` compares greater than every number).
-/

namespace PromissoryArbiter

/-- JS `<` where either operand may be `undefined` (`none`).  Any comparison
involving `undefined` coerces to `NaN` and yields `false`. -/
def undefLt : Option Int → Option Int → Bool
  | some a, some b => a < b
  | _, _ => false

/-- JS `<` where `none` stands for `Infinity` (used by the finger-array key
projections `getFingerArrayOrder` / `getFingerArrayPriority`, which return the
pointed element's key or `Infinity` when the sequence is exhausted). -/
def infLt : Option Int → Option Int → Bool
  | some a, some b => a < b
  | some _, none => true
  | none, _ => false

/-- JS `<` on plain numbers (here: integer keys). -/
def intLt (a b : Int) : Bool := a < b

/-- Lexicographic comparison of character sequences by code point, the order
JS `<` uses on (BMP) strings. -/
def charListLt : List Char → List Char → Bool
  | [], [] => false
  | [], _ :: _ => true
  | _ :: _, [] => false
  | a :: as, b :: bs =>
    if a.val < b.val then true
    else if b.val < a.val then false
    else charListLt as bs

/-- JS `<` on strings (lexicographic), used for the sorted children lists. -/
def strLt (a b : String) : Bool := charListLt a.data b.data

/-- Source `binaryIndexBy`: locates the insertion index that keeps
`array` sorted, i.e. the first index whose key is not `<` the searched value.
`low + high >>> 1` is floor halving for the array sizes involved.  The
recursion is driven by a fuel argument that starts at `array.length`, which
always dominates `high - low`. -/
def binaryIndexGo (lt : κ → κ → Bool) (getValue : α → κ) (value : κ)
    (array : List α) : Nat → Nat → Nat → Nat
  | 0, _, high => high
  | fuel+1, low, high =>
    if low < high then
      let mid := (low + high) / 2
      match array.get? mid with
      | some elem =>
        if lt (getValue elem) value then
          binaryIndexGo lt getValue value array fuel (mid+1) high
        else
          binaryIndexGo lt getValue value array fuel low mid
      | none => high
    else high

/-- Entry point of `binaryIndexBy`. -/
def binaryIndexBy (lt : κ → κ → Bool) (getValue : α → κ) (item : κ)
    (array : List α) : Nat :=
  binaryIndexGo lt getValue item array array.length 0 array.length

/-- Source `insert`: splices `item` into `list` at the index found by
`binaryIndexBy`, keeping the list sorted ascending by `getValue` (new items go
in front of equal keys). -/
def insertOrdered (lt : κ → κ → Bool) (getValue : α → κ) (item : α)
    (list : List α) : List α :=
  let index := binaryIndexBy lt getValue (getValue item) list
  list.take index ++ item :: list.drop index

/-- Source `minBy`, specialised to return the index of the winner.
The JS loop starts with `list[0]` as the winner and replaces it only on a
strictly smaller key, so the result is the first index attaining the minimum.
`key` is the composed value computer (`getFingerArrayPriority` or
`getFingerArrayOrder` in the two call sites). -/
def minIdxGo (key : Nat → Option Int) (len : Nat) : Nat → Nat → Nat → Nat
  | 0, w, _ => w
  | fuel+1, w, idx =>
    if idx < len then
      minIdxGo key len fuel (if infLt (key idx) (key w) then idx else w) (idx+1)
    else w

/-- Index-returning form of `minBy` over `len` entries. -/
def minIdxBy (key : Nat → Option Int) (len : Nat) : Nat :=
  minIdxGo key len len 0 1

/-- A finger array: a list with a pointer to the current element. -/
structure FingerArray (α : Type u) where
  pointer : Nat
  array : List α
deriving Repr, DecidableEq

/-- Source `mkFingerArray`. -/
def mkFingerArray (array : List α) : FingerArray α := ⟨0, array⟩

/-- Source `getPointedFinger`: the pointed element, or `none` for the
`SYMBOL_NOTHING` sentinel when the pointer ran off the end. -/
def getPointedFinger (fa : FingerArray α) : Option α := fa.array.get? fa.pointer

/-- Advancing the pointer (`min.pointer += 1` in `mergeBy`). -/
def advance (fa : FingerArray α) : FingerArray α := ⟨fa.pointer + 1, fa.array⟩

/-- The suffix of the array not yet consumed. -/
def remaining (fa : FingerArray α) : List α := fa.array.drop fa.pointer

/-- The key of the `i`-th finger array: the pointed element's key, or
`Infinity` (`none`) when exhausted.  This is `getFingerArrayOrder` /
`getFingerArrayPriority` composed with the state lookup. -/
def fingerKeyAt (getVal : α → Int) (fs : List (FingerArray α)) (i : Nat) :
    Option Int :=
  match fs.get? i with
  | some fa => (getPointedFinger fa).map getVal
  | none => none

/-- The loop body of `mergeBy`: `n` rounds, each selecting the finger with the
minimal key, emitting its pointed element (possibly the sentinel, modelled as
`none`) and advancing its pointer. -/
def mergeLoop (getVal : α → Int) (fs : List (FingerArray α)) :
    Nat → List (Option α)
  | 0 => []
  | n+1 =>
    let j := minIdxBy (fingerKeyAt getVal fs) fs.length
    match fs.get? j with
    | some fa => getPointedFinger fa :: mergeLoop getVal (fs.set j (advance fa)) n
    | none => []

/-- Source `mergeBy`: a k-way merge of `arrays` by the key projection
`getVal`, running for the sum of the lengths. -/
def mergeBy (getVal : α → Int) (arrays : List (List α)) : List (Option α) :=
  mergeLoop getVal (arrays.map mkFingerArray) ((arrays.map List.length).sum)

example : mergeBy id [[1, 3], [2]] = [some 1, some 2, some 3] := by decide

example : binaryIndexBy intLt id 2 [1, 2, 2, 3] = 1 := by decide

/-- A stored subscriber: either the user's callable or the `noop` placeholder
that `createSubscription` substitutes for non-callable arguments. -/
inductive SubFn (F : Type) where
  | user (f : F)
  | noop
deriving DecidableEq

/-- A subscription record as built by `createSubscription`.  The opaque
`context` receiver plays no role in any verified claim and is not modelled. -/
structure Subscription (F : Type) where
  id : Int
  fn : SubFn F
  suspended : Bool
  priority : Int
deriving DecidableEq

/-- A persisted message `{topic, data, order}`.  Note that it has no `id`
property; reading `.id` from it yields `undefined`. -/
structure PersistedMsg (D : Type) where
  topic : String
  data : D
  order : Int
deriving DecidableEq

/-- Source `getId` applied to a persisted message: the property is absent, so the
access evaluates to `undefined` (`none`). -/
def persistedGetId (_ : PersistedMsg D) : Option Int := none

/-- A node of the topic tree (`createNode` plus accumulated contents). -/
inductive Node (D F : Type) where
  | mk (topic : String) (subscriptions : List (Subscription F))
       (children : List (Node D F)) (persisted : List (PersistedMsg D))

/-- Source `getTopic`. -/
def Node.topic : Node D F → String
  | .mk t _ _ _ => t

/-- Source `getSubscriptions`. -/
def Node.subscriptions : Node D F → List (Subscription F)
  | .mk _ s _ _ => s

/-- The sorted children list. -/
def Node.children : Node D F → List (Node D F)
  | .mk _ _ c _ => c

/-- Source `getPersisted`. -/
def Node.persisted : Node D F → List (PersistedMsg D)
  | .mk _ _ _ p => p

/-- Source `createNode`. -/
def createNode (topic : String) : Node D F := .mk topic [] [] []

/-- Character-sequence prefix test. -/
def charListIsPrefix : List Char → List Char → Bool
  | [], _ => true
  | _ :: _, [] => false
  | a :: as, b :: bs => a == b && charListIsPrefix as bs

/-- Source `startsWith(haystack, needle)`, implemented in the source via
`lastIndexOf(needle, 0) === 0`: a prefix test. -/
def jsStartsWith (haystack needle : String) : Bool :=
  charListIsPrefix needle.data haystack.data

/-- Source `isAncestorTopic`. -/
def isAncestorTopic (topic : String) (node : Node D F) : Bool :=
  topic == node.topic || jsStartsWith topic (node.topic ++ ".") || node.topic == ""

mutual

/-- Source `descendents`: the node followed by all transitive descendants, children
in stored order.  (The source folds `appendDescendents` over `node.children`
starting from `[node]`; the fold associates `++` differently but yields the
same list.) -/
def descendents : Node D F → List (Node D F)
  | .mk t s c p => .mk t s c p :: descendentsList c

/-- Concatenation of `descendents` over a list of children. -/
def descendentsList : List (Node D F) → List (Node D F)
  | [] => []
  | c :: cs => descendents c ++ descendentsList cs

end

mutual

/-- A computable node count, used as recursion fuel: it strictly exceeds the
depth of the tree. -/
def nodeSize : Node D F → Nat
  | .mk _ _ c _ => 1 + nodeSizeList c

/-- Sum of `nodeSize` over children. -/
def nodeSizeList : List (Node D F) → Nat
  | [] => 0
  | c :: cs => nodeSize c + nodeSizeList cs

end

/-- Source `ancestorSearch` (instantiated with `getTopic`/`isAncestorTopic` as in
`ancestorTopicSearch`), combined with an update: it descends exactly the path
the source's search walks, applies `g` at the node the search returns, and
rebuilds the tree along the path.  `children[index - 1]` is `undefined` in JS
when `index` is `0`, hence the explicit guards.  The recursion is bounded by
a fuel argument; the wrapper passes `sizeOf tree`, which strictly exceeds the
tree's depth, so the fuel-exhausted branch is unreachable. -/
def ancestorModifyGo (g : Node D F → β × Node D F) (value : String) :
    Nat → Node D F → β × Node D F
  | 0, tree => g tree
  | fuel+1, tree =>
    if tree.topic = value then g tree
    else
      let index := binaryIndexBy strLt Node.topic value tree.children
      match tree.children.get? index, tree.children.get? (index - 1) with
      | some child1, some child0 =>
        if isAncestorTopic value child1 then
          let r := ancestorModifyGo g value fuel child1
          (r.1, Node.mk tree.topic tree.subscriptions
            (tree.children.set index r.2) tree.persisted)
        else if index ≠ 0 ∧ isAncestorTopic value child0 then
          let r := ancestorModifyGo g value fuel child0
          (r.1, Node.mk tree.topic tree.subscriptions
            (tree.children.set (index - 1) r.2) tree.persisted)
        else g tree
      | some child1, none =>
        if isAncestorTopic value child1 then
          let r := ancestorModifyGo g value fuel child1
          (r.1, Node.mk tree.topic tree.subscriptions
            (tree.children.set index r.2) tree.persisted)
        else g tree
      | none, some child0 =>
        if index ≠ 0 ∧ isAncestorTopic value child0 then
          let r := ancestorModifyGo g value fuel child0
          (r.1, Node.mk tree.topic tree.subscriptions
            (tree.children.set (index - 1) r.2) tree.persisted)
        else g tree
      | none, none => g tree

/-- Entry point of the searching update. -/
def ancestorModify (g : Node D F → β × Node D F) (value : String)
    (tree : Node D F) : β × Node D F :=
  ancestorModifyGo g value (nodeSize tree) tree

/-- Source `ancestorTopicSearch`: the pure search is the modify instance whose action
returns the found node unchanged. -/
def ancestorTopicSearch (value : String) (tree : Node D F) : Node D F :=
  (ancestorModify (fun n => (n, n)) value tree).1

/-- The broker's options record.  Numbers are modelled exactly: the latch and
semaphore as rationals, ids and priorities as integers; `semaphor = none` is
`Infinity`; `priority = none` models the key being absent (`undefined`) on
the broker's default object, and `+options.priority || 0` resolves it to `0`
at `createSubscription` time. -/
structure Options where
  persist : Bool
  sync : Bool
  preventBubble : Bool
  latch : ℚ
  settlementLatch : Bool
  semaphor : Option ℚ
  updateAfterSettlement : Bool
  priority : Option Int
  ignorePersisted : Bool
deriving DecidableEq

/-- The default latch `0.9999999999999999`, the double just below `1`,
which is exactly `(2^53 - 1) / 2^53`. -/
def defaultLatch : ℚ := mkRat 9007199254740991 9007199254740992

/-- The `options` object installed by `create()`. -/
def defaultOptions : Options :=
  { persist := false, sync := false, preventBubble := false,
    latch := defaultLatch, settlementLatch := false, semaphor := none,
    updateAfterSettlement := false, priority := none, ignorePersisted := false }

/-- A per-call options object: present keys override the broker defaults. -/
structure OptionsOverride where
  persist : Option Bool := none
  sync : Option Bool := none
  preventBubble : Option Bool := none
  latch : Option ℚ := none
  settlementLatch : Option Bool := none
  semaphor : Option (Option ℚ) := none
  updateAfterSettlement : Option Bool := none
  priority : Option Int := none
  ignorePersisted : Option Bool := none
deriving DecidableEq

/-- Source `merge(a, b)`: a fresh object carrying all of `a`'s properties overridden
by the properties present on `b`; neither argument is written to. -/
def merge (a : Options) (b : OptionsOverride) : Options :=
  { persist := b.persist.getD a.persist
    sync := b.sync.getD a.sync
    preventBubble := b.preventBubble.getD a.preventBubble
    latch := b.latch.getD a.latch
    settlementLatch := b.settlementLatch.getD a.settlementLatch
    semaphor := b.semaphor.getD a.semaphor
    updateAfterSettlement := b.updateAfterSettlement.getD a.updateAfterSettlement
    priority := match b.priority with | some p => some p | none => a.priority
    ignorePersisted := b.ignorePersisted.getD a.ignorePersisted }

/-- The token returned by `subscribe`. -/
structure SubToken where
  topic : String
  id : Int
  priority : Int
deriving DecidableEq

/-- The token attached to a persisted publication. -/
structure PubToken where
  topic : String
  id : Int
deriving DecidableEq

/-- One broker instance: its topic tree, its default options and the state of
its monotonic id generator (`mkGenerator` starts at `-9007199254740992`). -/
structure ArbiterState (D F : Type) where
  topics : Node D F
  options : Options
  nextId : Int

/-- The state `create()` builds. -/
def initialState (D F : Type) : ArbiterState D F :=
  { topics := createNode "", options := defaultOptions,
    nextId := -9007199254740992 }

/-- Source `createSubscription`: non-callable subscribers (`none`) are replaced by
the `noop` placeholder, and the priority defaults to `0`. -/
def createSubscription (id : Int) (fn : Option F) (priority : Option Int) :
    Subscription F :=
  { id := id
    fn := match fn with | some f => SubFn.user f | none => SubFn.noop
    suspended := false
    priority := priority.getD 0 }

/-- Inserting a subscription into a node's priority-sorted list (`insert` with
`getPriority`). -/
def insertSub (sub : Subscription F) (n : Node D F) : Node D F :=
  Node.mk n.topic (insertOrdered intLt Subscription.priority sub n.subscriptions)
    n.children n.persisted

/-- Source `appendPrefixedTopic`: appends the fully qualified topic built from the
accumulator's last element. -/
def appendPrefixedTopic (arr : List String) (topic : String) : List String :=
  let last := arr.getLastD ""
  let pre := if last = "" then "" else last ++ "."
  arr ++ [pre ++ topic]

/-- The list of new full topic names `addTopicLine` materializes strictly
below `ancestorTopic` (the source's `additionalTopics.slice(1)`):
`topic.substr(ancestorTopic.length)` with one leading dot removed, split on
dots, accumulated by `appendPrefixedTopic`. -/
def chainTopics (ancestorTopic topic : String) : List String :=
  let rest := topic.drop ancestorTopic.length
  let rest := if rest.startsWith "." then rest.drop 1 else rest
  ((rest.splitOn ".").foldl appendPrefixedTopic [ancestorTopic]).drop 1

/-- Source `addFamilyLine`: one node per topic in the list, each sorted-inserted into
the previous node's children (`addChild` by topic), with the action `g`
applied at the terminal node that `addTopicLine` returns.  Building the fresh
subtree before linking it is equivalent to the source's link-then-mutate
order because the inserted node's topic never changes. -/
def buildChain (g : Node D F → β × Node D F) : List String → Node D F → β × Node D F
  | [], node => g node
  | t :: rest, node =>
    let r := buildChain g rest (createNode t)
    (r.1, Node.mk node.topic node.subscriptions
      (insertOrdered strLt Node.topic r.2 node.children) node.persisted)

/-- Source `addTopicLine(topic, ancestor)` with action `g` at the terminal node.
When the ancestor already carries `topic` no nodes are added and `g` applies
to it directly. -/
def addTopicLineWith (g : Node D F → β × Node D F) (topic : String)
    (ancestor : Node D F) : β × Node D F :=
  if ancestor.topic = topic then g ancestor
  else buildChain g (chainTopics ancestor.topic topic) ancestor

/-- The persisted-message replay performed at the end of `subscribe`: the
persisted lists of all descendants of the subscribed node, k-way merged by
`order` (`mergeBy getFingerArrayOrder`); skipped entirely under
`ignorePersisted`.  Each element of the resulting list is handed to the raw
subscriber as `(persisted.data, persisted.topic)` during the subscribe
call. -/
def replayOf (ignorePersisted : Bool) (n : Node D F) :
    List (Option (PersistedMsg D)) :=
  if ignorePersisted then []
  else mergeBy PersistedMsg.order ((descendents n).map Node.persisted)

/-- The action `subscribe` performs at the terminal node: sorted-insert the
subscription, then compute the replay from the node's descendants. -/
def atTerminal (sub : Subscription F) (ignorePersisted : Bool) (n : Node D F) :
    List (Option (PersistedMsg D)) × Node D F :=
  let n2 := insertSub sub n
  (replayOf ignorePersisted n2, n2)

/-- The value `subscribe` produces: the token, the replayed persisted
messages, and the broker state afterwards. -/
structure SubscribeResult (D F : Type) where
  token : SubToken
  delivered : List (Option (PersistedMsg D))
  state : ArbiterState D F

/-- Source `subscribe(state, topic, subscription, options, context)` for a string
topic: merge options, create the subscription (consuming one generator id),
place it at the node for `topic` (materializing the path from the deepest
existing ancestor), and replay persisted messages unless `ignorePersisted`. -/
def subscribeModel (st : ArbiterState D F) (topic : String) (fn : Option F)
    (opts : OptionsOverride) : SubscribeResult D F :=
  let options := merge st.options opts
  let sub := createSubscription st.nextId fn options.priority
  let r := ancestorModify (addTopicLineWith (atTerminal sub options.ignorePersisted) topic)
    topic st.topics
  { token := ⟨topic, sub.id, sub.priority⟩
    delivered := r.1
    state := { topics := r.2, options := st.options, nextId := st.nextId + 1 } }

/-- Source `findLineage` (instantiated with `getTopic`/`isAncestorTopic` as in
`hierarchicalTopicDispatcher`): the path of existing nodes from the root down
to the deepest ancestor of `value`.  The candidate child is
`children[index]` when its topic equals `value` exactly, otherwise
`children[index - 1]` (`undefined` in JS when `index` is `0`); recursion
stops when the candidate is missing or not an ancestor. -/
def findLineageGo (value : String) : Nat → Node D F → List (Node D F)
  | 0, tree => [tree]
  | fuel+1, tree =>
    if isAncestorTopic value tree then
      let index := binaryIndexBy strLt Node.topic value tree.children
      match tree.children.get? index, tree.children.get? (index - 1) with
      | some foundChild, some child0 =>
        if foundChild.topic = value then tree :: findLineageGo value fuel foundChild
        else if index ≠ 0 then tree :: findLineageGo value fuel child0
        else [tree]
      | some foundChild, none =>
        if foundChild.topic = value then tree :: findLineageGo value fuel foundChild
        else [tree]
      | none, some child0 =>
        if index ≠ 0 then tree :: findLineageGo value fuel child0 else [tree]
      | none, none => [tree]
    else []

/-- Entry point of the lineage walk (fuel `sizeOf tree` bounds the depth). -/
def findLineage (value : String) (tree : Node D F) : List (Node D F) :=
  findLineageGo value (nodeSize tree) tree

/-- The same walk as `findLineage`, applying `g` at the deepest ancestor (the
node reference `hierarchicalTopicDispatcher` mutates when persisting) and
rebuilding the tree along the path. -/
def findLineageModifyGo (g : Node D F → Node D F) (value : String) :
    Nat → Node D F → Node D F
  | 0, tree => g tree
  | fuel+1, tree =>
    if isAncestorTopic value tree then
      let index := binaryIndexBy strLt Node.topic value tree.children
      match tree.children.get? index, tree.children.get? (index - 1) with
      | some foundChild, some child0 =>
        if foundChild.topic = value then
          Node.mk tree.topic tree.subscriptions
            (tree.children.set index (findLineageModifyGo g value fuel foundChild))
            tree.persisted
        else if index ≠ 0 then
          Node.mk tree.topic tree.subscriptions
            (tree.children.set (index - 1) (findLineageModifyGo g value fuel child0))
            tree.persisted
        else g tree
      | some foundChild, none =>
        if foundChild.topic = value then
          Node.mk tree.topic tree.subscriptions
            (tree.children.set index (findLineageModifyGo g value fuel foundChild))
            tree.persisted
        else g tree
      | none, some child0 =>
        if index ≠ 0 then
          Node.mk tree.topic tree.subscriptions
            (tree.children.set (index - 1) (findLineageModifyGo g value fuel child0))
            tree.persisted
        else g tree
      | none, none => g tree
    else tree

/-- Entry point of the modifying lineage walk. -/
def findLineageModify (g : Node D F → Node D F) (value : String)
    (tree : Node D F) : Node D F :=
  findLineageModifyGo g value (nodeSize tree) tree

/-- The resolver created by `createResolver` together with the observable
counters stored on the publication promise.  The source variable `settled`
(the count `fulfilled + rejected`) is called `settledCount` in
`evaluateLatch` below to avoid clashing with this flag. -/
structure ResolverState (V : Type) where
  settled : Bool
  fulfilledValues : List V
  rejectedValues : List V
  fulfilled : Nat
  rejected : Nat
  pending : Nat
deriving DecidableEq

/-- How a latch evaluation settles the publication future. -/
inductive Settlement (V : Type) where
  | rejectedWith (vs : List V)
  | fulfilledWith (vs : List V)
deriving DecidableEq

/-- JS `a / b < L` for nonnegative integer counters: division by zero yields
`NaN` (for `0 / 0`) or `Infinity`, and both make `<` evaluate to false. -/
def jsDivLt (a b : Nat) (L : ℚ) : Bool :=
  if b = 0 then false else decide ((a : ℚ) / (b : ℚ) < L)

/-- JS `a / b >= L`: `NaN >= L` is false, `Infinity >= L` is true. -/
def jsDivGe (a b : Nat) (L : ℚ) : Bool :=
  if b = 0 then decide (a ≠ 0) else decide ((a : ℚ) / (b : ℚ) ≥ L)

/-- Source `evaluateLatch(resolver, options)`: when the resolver is unsettled, test
the four reject disjuncts, then the four fulfill disjuncts; rejection carries
`rejectedValues`, fulfillment carries `fulfilledValues` (fulfillment latch) or
`fulfilledValues.concat(rejectedValues)` (settlement latch). -/
def evaluateLatch (r : ResolverState V) (o : Options) :
    Option (Settlement V) × ResolverState V :=
  if r.settled then (none, r)
  else
    let fulfilled := r.fulfilled
    let pending := r.pending
    let rejected := r.rejected
    let settledCount := fulfilled + rejected
    let maxFulfilled := fulfilled + pending
    let total := fulfilled + pending + rejected
    let latch := o.latch
    let sL := o.settlementLatch
    if (!sL && decide (1 ≤ latch) && decide ((maxFulfilled : ℚ) < latch))
        || (!sL && decide (latch < 1) && jsDivLt maxFulfilled total latch)
        || (sL && decide (1 ≤ latch) && decide ((total : ℚ) < latch))
        || (sL && decide (latch < 1) && decide (total = 0)) then
      (some (.rejectedWith r.rejectedValues), { r with settled := true })
    else if (!sL && decide (1 ≤ latch) && decide ((fulfilled : ℚ) ≥ latch))
        || (!sL && decide (latch < 1) && jsDivGe fulfilled total latch)
        || (sL && decide (1 ≤ latch) && decide ((settledCount : ℚ) ≥ latch))
        || (sL && decide (latch < 1) && jsDivGe settledCount total latch) then
      (some (.fulfilledWith
          (if sL then r.fulfilledValues ++ r.rejectedValues else r.fulfilledValues)),
        { r with settled := true })
    else (none, r)

/-- The order in which `resumeSubscriptionDispatcher` launches entries of the
dispatch list: the loop walks `resolver.i` from the last index down to `0`,
skipping suspended entries without launching them.  The `SYMBOL_NOTHING`
sentinel (`none`) has no `suspended` property (`undefined` is falsy), so it
would be launched.  Resumes after semaphore pauses continue the same
monotonically decreasing walk, so this list is the complete launch order. -/
def launchOrder (subs : List (Option (Subscription F))) :
    List (Option (Subscription F)) :=
  subs.reverse.filter fun o => !(match o with | some s => s.suspended | none => false)

/-- Condition `promise.pending < options.semaphor`, with `none` as `Infinity`. -/
def underSemaphor (pending : Nat) (sem : Option ℚ) : Bool :=
  match sem with
  | none => true
  | some q => decide ((pending : ℚ) < q)

/-- The prefix of the launch order dispatched synchronously, before any
subscriber settles: launching the `j`-th entry requires `j < semaphor`
because each launch increments `pending`. -/
def semTake (sem : Option ℚ) (l : List α) : List α :=
  l.take ((List.range l.length).takeWhile (fun j => underSemaphor j sem)).length

/-- Appending a persisted publication (`topicNode.persisted.push`). -/
def pushPersisted (msg : PersistedMsg D) (n : Node D F) : Node D F :=
  Node.mk n.topic n.subscriptions n.children (n.persisted ++ [msg])

/-- What `hierarchicalTopicDispatcher` produces: the resolver behind the
publication promise (with its observable counters), the settlement decided by
the initial latch evaluation, the dispatch launches, and the persistence
token. -/
structure DispatchResult (D F V : Type) where
  resolver : ResolverState V
  settlement : Option (Settlement V)
  launched : List (Option (Subscription F))
  token : Option PubToken

/-- Source `hierarchicalTopicDispatcher`: find the lineage, build the dispatch list
(exact-match subscriptions under `preventBubble`, otherwise the k-way merge
of the lineage's subscription lists by priority), launch up to the semaphore,
evaluate the latch once, and persist the message when requested.  Subscriber
settlement callbacks always run on later microtasks, so no subscriber outcome
is recorded within this call. -/
def hierarchicalTopicDispatcher (V : Type) (st : ArbiterState D F)
    (topic : String) (data : D) (options : Options) :
    DispatchResult D F V × ArbiterState D F :=
  let lineage := findLineage topic st.topics
  let topicNode := lineage.getLastD (createNode "")
  let subscriptions : List (Option (Subscription F)) :=
    if options.preventBubble then
      (if topicNode.topic = topic then topicNode.subscriptions.map some else [])
    else mergeBy Subscription.priority (lineage.map Node.subscriptions)
  let launched := semTake options.semaphor (launchOrder subscriptions)
  let r0 : ResolverState V :=
    { settled := false, fulfilledValues := [], rejectedValues := [],
      fulfilled := 0, rejected := 0, pending := launched.length }
  let er := evaluateLatch r0 options
  if options.persist then
    let id := st.nextId
    let topics2 := findLineageModify
      (fun anc =>
        (addTopicLineWith (fun n => ((), pushPersisted ⟨topic, data, id⟩ n)) topic anc).2)
      topic st.topics
    ({ resolver := er.2, settlement := er.1, launched := launched,
       token := some ⟨topic, id⟩ },
     { st with topics := topics2, nextId := st.nextId + 1 })
  else
    ({ resolver := er.2, settlement := er.1, launched := launched, token := none },
     st)

/-- What `publish` hands back to the caller, together with the broker state
once the call returns. -/
structure PublishResult (D F V : Type) where
  returned : Option (DispatchResult D F V)
  state : ArbiterState D F

/-- Source `async(f, args)`: builds `new Promise(invoke).then(...)` to run `f` on a
later microtask, but has no `return` statement — the call evaluates to
`undefined`. -/
def asyncReturn (D F V : Type) : Option (DispatchResult D F V) := none

/-- Source `publish(state, topic, data, options)` for a string topic: merge options;
under `sync` run the dispatcher inline and return its publication promise;
otherwise defer the whole dispatch via `async` (whose eventual effect is
`hierarchicalTopicDispatcher` on the then-current state) and return
`undefined`. -/
def publishModel (V : Type) (st : ArbiterState D F) (topic : String) (data : D)
    (opts : OptionsOverride) : PublishResult D F V :=
  let options := merge st.options opts
  if options.sync then
    let r := hierarchicalTopicDispatcher V st topic data options
    { returned := some r.1, state := r.2 }
  else
    { returned := asyncReturn D F V, state := st }

/-- The splice step of `removePersisted(token)`: binary-search the node's
persisted list — with `getId`, although persisted messages carry no `id`
property, so every probed key is `undefined` — then remove one message when
the probe's `order` matches. -/
def removePersistedAt (id : Int) (node : Node D F) : Bool × Node D F :=
  let i := binaryIndexBy undefLt persistedGetId (some id) node.persisted
  match node.persisted.get? i with
  | some persistedMessage =>
    if persistedMessage.order = id then
      (true, Node.mk node.topic node.subscriptions node.children
        (node.persisted.take i ++ node.persisted.drop (i + 1)))
    else (false, node)
  | none => (false, node)

/-- Source `removePersisted(topics, token)` for a token argument: ancestor search,
exact topic check, then the splice step. -/
def removePersistedModel (topics : Node D F) (token : PubToken) :
    Bool × Node D F :=
  ancestorModify
    (fun node =>
      if node.topic ≠ token.topic then (false, node)
      else removePersistedAt token.id node)
    token.topic topics

/-- A fragment of the JS value universe sufficient for the facade's dynamic
topic handling.  Plain objects are modelled without `length` or `topic`
properties. -/
inductive JSVal where
  | str (s : String)
  | num (n : Int)
  | bool (b : Bool)
  | null
  | undef
  | arr (xs : List JSVal)
  | fnVal (arity : Nat)
  | obj

/-- JS `typeof`. -/
def jsTypeof : JSVal → String
  | .str _ => "string"
  | .num _ => "number"
  | .bool _ => "boolean"
  | .null => "object"
  | .undef => "undefined"
  | .arr _ => "object"
  | .fnVal _ => "function"
  | .obj => "object"

/-- JS truthiness of the modelled values (integer numbers cannot be `NaN`). -/
def truthy : JSVal → Bool
  | .str s => decide (s ≠ "")
  | .num n => decide (n ≠ 0)
  | .bool b => b
  | .null => false
  | .undef => false
  | .arr _ => true
  | .fnVal _ => true
  | .obj => true

/-- The `.length` property: strings, arrays and functions have one, all other
modelled values yield `undefined`. -/
def lengthProp : JSVal → Option Nat
  | .str s => some s.length
  | .arr xs => some xs.length
  | .fnVal k => some k
  | _ => none

/-- One step of `topic.split(/,\s*/)`: state is (finished pieces, current
piece, currently consuming the whitespace run after a comma). -/
def splitTopicsStep : (List String × String × Bool) → Char → (List String × String × Bool)
  | (pieces, current, skipWs), c =>
    if skipWs ∧ c.isWhitespace then (pieces, current, true)
    else if c = ',' then (pieces ++ [current], "", true)
    else (pieces, current.push c, false)

/-- Source `topic.split(/,\s*/)`: split at each comma, also consuming the whitespace
run that follows it. -/
def splitTopics (s : String) : List String :=
  let r := s.toList.foldl splitTopicsStep ([], "", false)
  r.1 ++ [r.2.1]

/-- The two normalization lines of `subscribeDispatcher`: convert a string
topic to its comma-split list, then iterate the value as an array exactly
when it is truthy with a truthy (nonzero) `length`, else wrap it as a
singleton.  Indexing a non-array array-like (a function) yields `undefined`
for every position. -/
def expandTopics (topic : JSVal) : List JSVal :=
  let t : JSVal := match topic with
    | .str s => .arr ((splitTopics s).map .str)
    | other => other
  match t with
  | .arr xs => if xs.length ≠ 0 then xs else [.arr xs]
  | .fnVal k => if k ≠ 0 then List.replicate k .undef else [.fnVal k]
  | other => [other]

/-- The facade `subscribe` raises iff some expanded topic fails the per-topic
`assert(typeof topic, 'string', ...)`.  (When validation fails the error
propagates out of `subscribeDispatcher`; the remaining statements of the
per-topic subscribe — option merging, tree surgery, sorted insertion — never
throw, and the replay loop is skipped under `ignorePersisted`.) -/
def subscribeRaises (topic : JSVal) : Bool :=
  (expandTopics topic).any fun x => jsTypeof x ≠ "string"

/-- Source `publish` validates its single topic argument directly. -/
def publishRaises (topic : JSVal) : Bool := jsTypeof topic ≠ "string"

/-- The message `assert` throws for `subscribe`:
`method + ' only accepts ' + type + ' as ' + identifier`. -/
def subscribeErrorMessage : String :=
  "Arbiter.subscribe only accepts strings as topics"

/-- The message `assert` throws for `publish`. -/
def publishErrorMessage : String :=
  "Arbiter.publish only accepts strings as topics"

/-- Whether a rejection carries the subscriber's own error value or a runtime
`TypeError` (raised, e.g., when a subscriber of arity other than `3` calls
its absent `done` argument). -/
inductive JsError (E : Type) where
  | user (e : E)
  | typeError
deriving DecidableEq

/-- What a subscriber does when invoked with `(data, topic)` and, in the
node-style branch, a `done` callback as third argument.  A `none` error
argument to `done` models any falsy first argument. -/
inductive CallBehavior (V E : Type) where
  | returns (v : V)
  | thenable (outcome : Option (E ⊕ V))
  | throws (e : E)
  | callsDone (err : Option E) (value : Option V)
deriving DecidableEq

/-- A subscriber function: its declared parameter count (`fn.length`) and its
behavior when called. -/
structure JSFunction (D V E : Type) where
  length : Nat
  call : D → String → CallBehavior V E

/-- The settlement of the invocation future built by `subscriptionInvoker`. -/
inductive InvocationOutcome (V E : Type) where
  | fulfilledWith (v : Option V)
  | rejectedWith (e : JsError E)
  | pending
deriving DecidableEq

/-- Source `subscriptionInvoker`: a function of declared length exactly `3` is
called with `(data, topic, done)` inside a promise executor — `done(err,
succ)` rejects with `err` when truthy and fulfills with `succ` otherwise; a
value returned without calling `done` leaves the future pending; an
exception thrown in the executor rejects the promise.  Every other length is
called with `(data, topic)` under `try`: thrown errors become
`Promise.reject`, a thenable result is awaited, and any other result
fulfills.  Such a function attempting to call the absent `done` hits a
`TypeError`, which the `try` turns into a rejection. -/
def subscriptionInvoker (fn : JSFunction D V E) (data : D) (topic : String) :
    InvocationOutcome V E :=
  if fn.length = 3 then
    match fn.call data topic with
    | .callsDone (some e) _ => .rejectedWith (.user e)
    | .callsDone none v => .fulfilledWith v
    | .throws e => .rejectedWith (.user e)
    | .returns _ => .pending
    | .thenable _ => .pending
  else
    match fn.call data topic with
    | .throws e => .rejectedWith (.user e)
    | .returns v => .fulfilledWith (some v)
    | .thenable (some (Sum.inl e)) => .rejectedWith (.user e)
    | .thenable (some (Sum.inr v)) => .fulfilledWith (some v)
    | .thenable none => .pending
    | .callsDone _ _ => .rejectedWith .typeError

example : subscribeRaises (.arr [.str "a", .str "b"]) = false := by decide

example : subscribeRaises (.num 5) = true := by decide

example : (expandTopics (.str "a, b")).length = 2 := by decide

/-! Section: Order facts for the finger-array key comparison -/

theorem infLt_irrefl (a : Option Int) : infLt a a = false := by
  cases a <;> simp [infLt]

theorem infLt_trans {a b c : Option Int} (h1 : infLt a b = true)
    (h2 : infLt b c = true) : infLt a c = true := by
  cases a <;> cases b <;> cases c <;> simp_all [infLt] <;> omega

theorem infLt_of_lt_of_not_lt {a b c : Option Int} (h1 : infLt a b = true)
    (h2 : infLt c b = false) : infLt a c = true := by
  cases a <;> cases b <;> cases c <;> simp_all [infLt] <;> omega

/-! Section: Specification of `minIdxBy` -/

theorem minIdxGo_spec (key : Nat → Option Int) (len : Nat) :
    ∀ (fuel w idx : Nat), w < len → 1 ≤ idx → len ≤ fuel + idx →
    (∀ i, i < idx → infLt (key i) (key w) = false) →
    (∀ i, i < w → infLt (key w) (key i) = true) →
    minIdxGo key len fuel w idx < len ∧
      (∀ i, i < len → infLt (key i) (key (minIdxGo key len fuel w idx)) = false) ∧
      (∀ i, i < minIdxGo key len fuel w idx →
        infLt (key (minIdxGo key len fuel w idx)) (key i) = true) := by
  intro fuel
  induction fuel with
  | zero =>
    intro w idx hw hidx hfuel h2 h3
    simp only [minIdxGo]
    exact ⟨hw, fun i hi => h2 i (by omega), h3⟩
  | succ fuel ih =>
    intro w idx hw hidx hfuel h2 h3
    rw [minIdxGo]
    by_cases hlen : idx < len
    · simp only [hlen, if_true]
      by_cases hlt : infLt (key idx) (key w) = true
      · simp only [hlt, if_true]
        apply ih idx (idx + 1) hlen (by omega) (by omega)
        · intro i hi
          rcases Nat.lt_succ_iff_lt_or_eq.mp hi with hi' | hi'
          · by_contra hcon
            rw [Bool.not_eq_false] at hcon
            have := infLt_trans hcon hlt
            have := h2 i hi'
            simp_all
          · subst hi'; exact infLt_irrefl _
        · intro i hi
          by_cases hiw : i < w
          · exact infLt_trans hlt (h3 i hiw)
          · exact infLt_of_lt_of_not_lt hlt (h2 i (by omega))
      · rw [Bool.not_eq_true] at hlt
        simp only [hlt, if_false]
        apply ih w (idx + 1) hw (by omega) (by omega)
        · intro i hi
          rcases Nat.lt_succ_iff_lt_or_eq.mp hi with hi' | hi'
          · exact h2 i hi'
          · subst hi'; exact hlt
        · exact h3
    · simp only [hlen, if_false]
      exact ⟨hw, fun i hi => h2 i (by omega), h3⟩

theorem minIdxBy_spec (key : Nat → Option Int) (len : Nat) (hlen : 1 ≤ len) :
    minIdxBy key len < len ∧
      (∀ i, i < len → infLt (key i) (key (minIdxBy key len)) = false) ∧
      (∀ i, i < minIdxBy key len → infLt (key (minIdxBy key len)) (key i) = true) := by
  unfold minIdxBy
  apply minIdxGo_spec key len len 0 1 hlen (by omega) (by omega)
  · intro i hi
    have : i = 0 := by omega
    subst this
    exact infLt_irrefl _
  · intro i hi
    omega

/-! Section: List bookkeeping helpers for the merge proofs -/

theorem get?_set_self {l : List α} {i : Nat} {a : α} (h : i < l.length) :
    (l.set i a).get? i = some a := by
  induction l generalizing i with
  | nil => simp at h
  | cons x xs ih =>
    cases i with
    | zero => rfl
    | succ n => simpa using ih (by simpa using h)

theorem get?_set_other {l : List α} {i j : Nat} {a : α} (h : i ≠ j) :
    (l.set i a).get? j = l.get? j := by
  induction l generalizing i j with
  | nil => simp
  | cons x xs ih =>
    cases i with
    | zero => cases j with
      | zero => omega
      | succ m => rfl
    | succ n => cases j with
      | zero => rfl
      | succ m => simpa using ih (by omega)

theorem sum_map_set (g : α → Nat) (l : List α) (i : Nat) (x y : α)
    (h : l.get? i = some x) :
    ((l.set i y).map g).sum + g x = (l.map g).sum + g y := by
  induction l generalizing i with
  | nil => simp at h
  | cons z zs ih =>
    cases i with
    | zero =>
      simp only [List.get?] at h
      cases h
      simp [List.set, List.map]
      omega
    | succ n =>
      simp only [List.get?] at h
      have hx := ih n h
      simp only [List.set, List.map, List.sum_cons]
      omega

theorem join_set_perm (L : List (List α)) (j : Nat) (a : α) (tl : List α)
    (h : L.get? j = some (a :: tl)) :
    List.Perm L.flatten (a :: (L.set j tl).flatten) := by
  induction L generalizing j with
  | nil => simp at h
  | cons l ls ih =>
    cases j with
    | zero =>
      simp only [List.get?] at h
      cases h
      simp [List.flatten]
    | succ n =>
      simp only [List.get?] at h
      have hp := ih n h
      simp only [List.set, List.flatten_cons]
      exact (List.Perm.append_left l hp).trans List.perm_middle

theorem get?_some_lt {l : List α} {n : Nat} {a : α} (h : l.get? n = some a) :
    n < l.length := by
  induction l generalizing n with
  | nil => simp at h
  | cons x xs ih =>
    cases n with
    | zero => simp
    | succ m => simpa using ih (by simpa using h)

theorem get?_lt_length {l : List α} {n : Nat} (h : n < l.length) :
    ∃ a, l.get? n = some a := by
  induction l generalizing n with
  | nil => simp at h
  | cons x xs ih =>
    cases n with
    | zero => exact ⟨x, rfl⟩
    | succ m => simpa using ih (by simpa using h)

theorem drop_succ_eq_tail (l : List α) (n : Nat) :
    l.drop (n + 1) = (l.drop n).tail := by
  induction l generalizing n with
  | nil => simp
  | cons x xs ih =>
    cases n with
    | zero => rfl
    | succ m => simpa using ih m

/-! Section: Facts about finger arrays and the merge state -/

/-- The ascending sortedness invariant of the per-node input lists. -/
def SortedBy (getVal : α → Int) (l : List α) : Prop :=
  l.Pairwise fun a b => getVal a ≤ getVal b

/-- Total number of unconsumed elements across all fingers. -/
def totalRem (fs : List (FingerArray α)) : Nat :=
  (fs.map fun fa => (remaining fa).length).sum

theorem get?_eq_head?_drop (l : List α) (n : Nat) :
    l.get? n = (l.drop n).head? := by
  induction l generalizing n with
  | nil => simp
  | cons x xs ih =>
    cases n with
    | zero => rfl
    | succ m => simpa using ih m

theorem pointed_eq_head (fa : FingerArray α) :
    getPointedFinger fa = (remaining fa).head? := by
  unfold getPointedFinger remaining
  exact get?_eq_head?_drop _ _

theorem remaining_advance {fa : FingerArray α} {a : α} {tl : List α}
    (h : remaining fa = a :: tl) : remaining (advance fa) = tl := by
  unfold remaining advance at *
  simp only [drop_succ_eq_tail, h, List.tail_cons]

theorem totalRem_zero {fs : List (FingerArray α)} (h : totalRem fs = 0) :
    (fs.map remaining).flatten = [] := by
  induction fs with
  | nil => rfl
  | cons fa rest ih =>
    unfold totalRem at h ih
    simp only [List.map, List.sum_cons, Nat.add_eq_zero] at h
    simp only [List.map, List.flatten_cons, List.length_eq_zero.mp h.1,
      List.nil_append]
    exact ih h.2

theorem totalRem_pos_exists {fs : List (FingerArray α)} (h : 0 < totalRem fs) :
    ∃ i fa, fs.get? i = some fa ∧ remaining fa ≠ [] := by
  induction fs with
  | nil => simp [totalRem] at h
  | cons fa rest ih =>
    by_cases hfa : remaining fa = []
    · have hrest : 0 < totalRem rest := by
        unfold totalRem at h ⊢
        simp only [List.map, List.sum_cons, hfa, List.length_nil] at h
        omega
      obtain ⟨i, fb, hi, hne⟩ := ih hrest
      exact ⟨i + 1, fb, by simpa using hi, hne⟩
    · exact ⟨0, fa, rfl, hfa⟩

theorem fingerKeyAt_of_get? {getVal : α → Int} {fs : List (FingerArray α)}
    {i : Nat} {fa : FingerArray α} (h : fs.get? i = some fa) :
    fingerKeyAt getVal fs i = ((remaining fa).head?).map getVal := by
  unfold fingerKeyAt
  rw [h]
  simp only [pointed_eq_head]

/-- Selection property of one merge round: the pointed element of the finger
`minBy` chooses is defined and is a minimum of everything unconsumed, strictly
smaller than everything in fingers to its left (ties keep the first finger),
and bounded by its own tail. -/
theorem merge_select (getVal : α → Int) (fs : List (FingerArray α))
    (hsort : ∀ fa ∈ fs, SortedBy getVal (remaining fa))
    (hpos : 0 < totalRem fs) :
    ∃ fa a tl,
      fs.get? (minIdxBy (fingerKeyAt getVal fs) fs.length) = some fa ∧
      remaining fa = a :: tl ∧
      (∀ b ∈ tl, getVal a ≤ getVal b) ∧
      (∀ i fb, fs.get? i = some fb →
        i ≠ minIdxBy (fingerKeyAt getVal fs) fs.length →
        ∀ b ∈ remaining fb, getVal a ≤ getVal b) ∧
      (∀ i fb, fs.get? i = some fb →
        i < minIdxBy (fingerKeyAt getVal fs) fs.length →
        ∀ b ∈ remaining fb, getVal a < getVal b) := by
  obtain ⟨i0, fb0, hi0, hne0⟩ := totalRem_pos_exists hpos
  have hlen : 1 ≤ fs.length := by
    have := get?_some_lt hi0
    omega
  obtain ⟨hjlt, hmin, hfirst⟩ := minIdxBy_spec (fingerKeyAt getVal fs) fs.length hlen
  set j := minIdxBy (fingerKeyAt getVal fs) fs.length with hj
  obtain ⟨fa, hfa⟩ := get?_lt_length hjlt
  have hfane : remaining fa ≠ [] := by
    intro hemp
    have hkj : fingerKeyAt getVal fs j = none := by
      rw [fingerKeyAt_of_get? hfa, hemp]
      rfl
    obtain ⟨b0, tb0, hb0⟩ : ∃ b0 tb0, remaining fb0 = b0 :: tb0 := by
      cases hrem : remaining fb0 with
      | nil => exact absurd hrem hne0
      | cons b0 tb0 => exact ⟨b0, tb0, rfl⟩
    have hki : fingerKeyAt getVal fs i0 = some (getVal b0) := by
      rw [fingerKeyAt_of_get? hi0, hb0]
      rfl
    have := hmin i0 (get?_some_lt hi0)
    rw [hki, hkj] at this
    simp [infLt] at this
  obtain ⟨a, tl, hatl⟩ : ∃ a tl, remaining fa = a :: tl := by
    cases hrem : remaining fa with
    | nil => exact absurd hrem hfane
    | cons a tl => exact ⟨a, tl, rfl⟩
  have hkj : fingerKeyAt getVal fs j = some (getVal a) := by
    rw [fingerKeyAt_of_get? hfa, hatl]
    rfl
  have htailhead : ∀ i fb b0 tb0, fs.get? i = some fb →
      remaining fb = b0 :: tb0 → ∀ b ∈ remaining fb, getVal b0 ≤ getVal b := by
    intro i fb b0 tb0 hifb hrem b hb
    have hs := hsort fb (List.get?_mem hifb)
    rw [hrem] at hs hb
    rcases List.mem_cons.mp hb with hb | hb
    · subst hb; rfl
    · exact (List.pairwise_cons.mp hs).1 b hb
  refine ⟨fa, a, tl, hfa, hatl, ?_, ?_, ?_⟩
  · intro b hb
    exact htailhead j fa a tl hfa hatl b (by rw [hatl]; exact List.mem_cons_of_mem a hb)
  · intro i fb hifb hne b hb
    obtain ⟨b0, tb0, hb0⟩ : ∃ b0 tb0, remaining fb = b0 :: tb0 := by
      cases hrem : remaining fb with
      | nil => rw [hrem] at hb; simp at hb
      | cons b0 tb0 => exact ⟨b0, tb0, rfl⟩
    have hki : fingerKeyAt getVal fs i = some (getVal b0) := by
      rw [fingerKeyAt_of_get? hifb, hb0]
      rfl
    have hle := hmin i (get?_some_lt hifb)
    rw [hki, hkj] at hle
    simp only [infLt, decide_eq_false_iff_not, not_lt] at hle
    exact le_trans hle (htailhead i fb b0 tb0 hifb hb0 b hb)
  · intro i fb hifb hlt b hb
    obtain ⟨b0, tb0, hb0⟩ : ∃ b0 tb0, remaining fb = b0 :: tb0 := by
      cases hrem : remaining fb with
      | nil => rw [hrem] at hb; simp at hb
      | cons b0 tb0 => exact ⟨b0, tb0, rfl⟩
    have hki : fingerKeyAt getVal fs i = some (getVal b0) := by
      rw [fingerKeyAt_of_get? hifb, hb0]
      rfl
    have hgt := hfirst i hlt
    rw [hki, hkj] at hgt
    simp only [infLt, decide_eq_true_eq] at hgt
    exact lt_of_lt_of_le hgt (htailhead i fb b0 tb0 hifb hb0 b hb)

/-- Comparison lifted to the merge output: constrains only pairs of real
elements (the sentinel is unconstrained). -/
def OptKeyLe (getVal : α → Int) (x y : Option α) : Prop :=
  ∀ a b, x = some a → y = some b → getVal a ≤ getVal b

/-- The stable refinement: between equal keys, an element of an earlier input
array is emitted first, and inside one array emission follows position, here
expressed through a strictly-decreasing tag `pos` on equal keys. -/
def OptKeyRefined (getVal pos : α → Int) (idx : α → Nat) (x y : Option α) : Prop :=
  ∀ a b, x = some a → y = some b →
    getVal a < getVal b ∨
      (getVal a = getVal b ∧
        (idx a < idx b ∨ (idx a = idx b ∧ pos b < pos a)))

theorem mergeLoop_perm (getVal : α → Int) :
    ∀ (n : Nat) (fs : List (FingerArray α)), n = totalRem fs →
    (∀ fa ∈ fs, SortedBy getVal (remaining fa)) →
    List.Perm (mergeLoop getVal fs n) (((fs.map remaining).flatten).map some) := by
  intro n
  induction n with
  | zero =>
    intro fs hn _
    rw [totalRem_zero hn.symm]
    simp [mergeLoop]
  | succ n ih =>
    intro fs hn hsort
    have hpos : 0 < totalRem fs := by omega
    obtain ⟨fa, a, tl, hfa, hatl, htail, hother, hleft⟩ :=
      merge_select getVal fs hsort hpos
    have hjlt := get?_some_lt hfa
    have hstep : mergeLoop getVal fs (n+1) =
        getPointedFinger fa :: mergeLoop getVal
          (fs.set (minIdxBy (fingerKeyAt getVal fs) fs.length) (advance fa)) n := by
      rw [mergeLoop]
      simp only [hfa]
    have hremadv := remaining_advance hatl
    have htotal : n = totalRem (fs.set
        (minIdxBy (fingerKeyAt getVal fs) fs.length) (advance fa)) := by
      have hsum := sum_map_set (fun fb => (remaining fb).length) fs
        (minIdxBy (fingerKeyAt getVal fs) fs.length) fa (advance fa) hfa
      unfold totalRem at hn ⊢
      simp only [hremadv, hatl, List.length_cons] at hsum
      omega
    have hsort' : ∀ fb ∈ fs.set
        (minIdxBy (fingerKeyAt getVal fs) fs.length) (advance fa),
        SortedBy getVal (remaining fb) := by
      intro fb hmem
      rcases List.mem_or_eq_of_mem_set hmem with hmem | hmem
      · exact hsort fb hmem
      · subst hmem
        rw [hremadv]
        have := hsort fa (List.get?_mem hfa)
        rw [hatl] at this
        exact (List.pairwise_cons.mp this).2
    have hmapset : (fs.map remaining).set
        (minIdxBy (fingerKeyAt getVal fs) fs.length) tl =
        (fs.set (minIdxBy (fingerKeyAt getVal fs) fs.length) (advance fa)).map
          remaining := by
      rw [List.map_set, hremadv]
    have hjoin := join_set_perm (fs.map remaining)
      (minIdxBy (fingerKeyAt getVal fs) fs.length) a tl
      (by rw [List.get?_map, hfa]; simp [hatl])
    rw [hmapset] at hjoin
    rw [hstep, pointed_eq_head, hatl]
    simp only [List.head?_cons]
    exact (List.Perm.cons (some a) (ih _ htotal hsort')).trans
      ((hjoin.map some).symm)

theorem mergeLoop_pairwise (getVal : α → Int) :
    ∀ (n : Nat) (fs : List (FingerArray α)), n = totalRem fs →
    (∀ fa ∈ fs, SortedBy getVal (remaining fa)) →
    (mergeLoop getVal fs n).Pairwise (OptKeyLe getVal) := by
  intro n
  induction n with
  | zero =>
    intro fs _ _
    simp [mergeLoop]
  | succ n ih =>
    intro fs hn hsort
    have hpos : 0 < totalRem fs := by omega
    obtain ⟨fa, a, tl, hfa, hatl, htail, hother, hleft⟩ :=
      merge_select getVal fs hsort hpos
    have hjlt := get?_some_lt hfa
    have hstep : mergeLoop getVal fs (n+1) =
        getPointedFinger fa :: mergeLoop getVal
          (fs.set (minIdxBy (fingerKeyAt getVal fs) fs.length) (advance fa)) n := by
      rw [mergeLoop]
      simp only [hfa]
    have hremadv := remaining_advance hatl
    have htotal : n = totalRem (fs.set
        (minIdxBy (fingerKeyAt getVal fs) fs.length) (advance fa)) := by
      have hsum := sum_map_set (fun fb => (remaining fb).length) fs
        (minIdxBy (fingerKeyAt getVal fs) fs.length) fa (advance fa) hfa
      unfold totalRem at hn ⊢
      simp only [hremadv, hatl, List.length_cons] at hsum
      omega
    have hsort' : ∀ fb ∈ fs.set
        (minIdxBy (fingerKeyAt getVal fs) fs.length) (advance fa),
        SortedBy getVal (remaining fb) := by
      intro fb hmem
      rcases List.mem_or_eq_of_mem_set hmem with hmem | hmem
      · exact hsort fb hmem
      · subst hmem
        rw [hremadv]
        have := hsort fa (List.get?_mem hfa)
        rw [hatl] at this
        exact (List.pairwise_cons.mp this).2
    rw [hstep, pointed_eq_head, hatl]
    simp only [List.head?_cons]
    refine List.Pairwise.cons ?_ (ih _ htotal hsort')
    intro y hy a' b' hxa hyb
    subst hyb
    injection hxa with hxa
    subst hxa
    have hperm := mergeLoop_perm getVal n _ htotal hsort'
    have hymem := hperm.mem_iff.mp hy
    obtain ⟨b'', hbmem, hbeq⟩ := List.mem_map.mp hymem
    injection hbeq with hbeq
    subst hbeq
    obtain ⟨lmem, hlmem, hbin⟩ := List.mem_flatten.mp hbmem
    obtain ⟨i, hi⟩ := List.get?_of_mem hlmem
    rw [List.get?_map] at hi
    obtain ⟨fb, hfb, hfbrem⟩ : ∃ fb,
        (fs.set (minIdxBy (fingerKeyAt getVal fs) fs.length) (advance fa)).get? i
          = some fb ∧ remaining fb = lmem := by
      cases hg : (fs.set (minIdxBy (fingerKeyAt getVal fs) fs.length)
          (advance fa)).get? i with
      | none => rw [hg] at hi; simp at hi
      | some fb =>
        rw [hg] at hi
        simp only [Option.map_some', Option.some.injEq] at hi
        exact ⟨fb, rfl, hi⟩
    by_cases hij : i = minIdxBy (fingerKeyAt getVal fs) fs.length
    · subst hij
      rw [get?_set_self hjlt] at hfb
      injection hfb with hfb
      subst hfb
      rw [hremadv] at hfbrem
      subst hfbrem
      exact htail b'' hbin
    · rw [get?_set_other (fun hh => hij hh.symm)] at hfb
      rw [← hfbrem] at hbin
      exact hother i fb hfb hij b'' hbin

/-- Stable version of the pairwise theorem: with per-array sortedness, a
strictly decreasing tag on equal keys inside each array, and an array-index
tag, consecutive outputs are ordered by key, then by source array, then by
the tag. -/
theorem mergeLoop_pairwise_refined (getVal pos : α → Int) (idx : α → Nat) :
    ∀ (n : Nat) (fs : List (FingerArray α)), n = totalRem fs →
    (∀ fa ∈ fs, SortedBy getVal (remaining fa)) →
    (∀ fa ∈ fs, (remaining fa).Pairwise
      (fun a b => getVal a = getVal b → pos b < pos a)) →
    (∀ i fa, fs.get? i = some fa → ∀ a ∈ remaining fa, idx a = i) →
    (mergeLoop getVal fs n).Pairwise (OptKeyRefined getVal pos idx) := by
  intro n
  induction n with
  | zero =>
    intro fs _ _ _ _
    simp [mergeLoop]
  | succ n ih =>
    intro fs hn hsort hpair hidx
    have hpos : 0 < totalRem fs := by omega
    obtain ⟨fa, a, tl, hfa, hatl, htail, hother, hleft⟩ :=
      merge_select getVal fs hsort hpos
    have hjlt := get?_some_lt hfa
    have hstep : mergeLoop getVal fs (n+1) =
        getPointedFinger fa :: mergeLoop getVal
          (fs.set (minIdxBy (fingerKeyAt getVal fs) fs.length) (advance fa)) n := by
      rw [mergeLoop]
      simp only [hfa]
    have hremadv := remaining_advance hatl
    have htotal : n = totalRem (fs.set
        (minIdxBy (fingerKeyAt getVal fs) fs.length) (advance fa)) := by
      have hsum := sum_map_set (fun fb => (remaining fb).length) fs
        (minIdxBy (fingerKeyAt getVal fs) fs.length) fa (advance fa) hfa
      unfold totalRem at hn ⊢
      simp only [hremadv, hatl, List.length_cons] at hsum
      omega
    have hsort' : ∀ fb ∈ fs.set
        (minIdxBy (fingerKeyAt getVal fs) fs.length) (advance fa),
        SortedBy getVal (remaining fb) := by
      intro fb hmem
      rcases List.mem_or_eq_of_mem_set hmem with hmem | hmem
      · exact hsort fb hmem
      · subst hmem
        rw [hremadv]
        have := hsort fa (List.get?_mem hfa)
        rw [hatl] at this
        exact (List.pairwise_cons.mp this).2
    have hpair' : ∀ fb ∈ fs.set
        (minIdxBy (fingerKeyAt getVal fs) fs.length) (advance fa),
        (remaining fb).Pairwise
          (fun a b => getVal a = getVal b → pos b < pos a) := by
      intro fb hmem
      rcases List.mem_or_eq_of_mem_set hmem with hmem | hmem
      · exact hpair fb hmem
      · subst hmem
        rw [hremadv]
        have := hpair fa (List.get?_mem hfa)
        rw [hatl] at this
        exact (List.pairwise_cons.mp this).2
    have hidx' : ∀ i fb, (fs.set
        (minIdxBy (fingerKeyAt getVal fs) fs.length) (advance fa)).get? i
          = some fb → ∀ a' ∈ remaining fb, idx a' = i := by
      intro i fb hifb a' ha'
      by_cases hij : i = minIdxBy (fingerKeyAt getVal fs) fs.length
      · subst hij
        rw [get?_set_self hjlt] at hifb
        injection hifb with hifb
        subst hifb
        rw [hremadv] at ha'
        exact hidx _ fa hfa a' (by rw [hatl]; exact List.mem_cons_of_mem a ha')
      · rw [get?_set_other (fun hh => hij hh.symm)] at hifb
        exact hidx i fb hifb a' ha'
    have hamem : a ∈ remaining fa := by
      rw [hatl]
      exact List.mem_cons_self a tl
    have hidxa : idx a = minIdxBy (fingerKeyAt getVal fs) fs.length :=
      hidx _ fa hfa a hamem
    rw [hstep, pointed_eq_head, hatl]
    simp only [List.head?_cons]
    refine List.Pairwise.cons ?_ (ih _ htotal hsort' hpair' hidx')
    intro y hy a' b' hxa hyb
    subst hyb
    injection hxa with hxa
    subst hxa
    have hperm := mergeLoop_perm getVal n _ htotal hsort'
    have hymem := hperm.mem_iff.mp hy
    obtain ⟨b'', hbmem, hbeq⟩ := List.mem_map.mp hymem
    injection hbeq with hbeq
    subst hbeq
    obtain ⟨lmem, hlmem, hbin⟩ := List.mem_flatten.mp hbmem
    obtain ⟨i, hi⟩ := List.get?_of_mem hlmem
    rw [List.get?_map] at hi
    obtain ⟨fb, hfb, hfbrem⟩ : ∃ fb,
        (fs.set (minIdxBy (fingerKeyAt getVal fs) fs.length) (advance fa)).get? i
          = some fb ∧ remaining fb = lmem := by
      cases hg : (fs.set (minIdxBy (fingerKeyAt getVal fs) fs.length)
          (advance fa)).get? i with
      | none => rw [hg] at hi; simp at hi
      | some fb =>
        rw [hg] at hi
        simp only [Option.map_some', Option.some.injEq] at hi
        exact ⟨fb, rfl, hi⟩
    by_cases hij : i = minIdxBy (fingerKeyAt getVal fs) fs.length
    · subst hij
      rw [get?_set_self hjlt] at hfb
      injection hfb with hfb
      subst hfb
      rw [hremadv] at hfbrem
      subst hfbrem
      have hle := htail b'' hbin
      rcases lt_or_eq_of_le hle with hlt | heq
      · exact Or.inl hlt
      · refine Or.inr ⟨heq, Or.inr ⟨?_, ?_⟩⟩
        · rw [hidxa]
          exact (hidx _ fa hfa b''
            (by rw [hatl]; exact List.mem_cons_of_mem a hbin)).symm ▸ rfl
        · have := hpair fa (List.get?_mem hfa)
          rw [hatl] at this
          exact (List.pairwise_cons.mp this).1 b'' hbin heq
    · rw [get?_set_other (fun hh => hij hh.symm)] at hfb
      rw [← hfbrem] at hbin
      have hle := hother i fb hfb hij b'' hbin
      rcases lt_or_eq_of_le hle with hlt | heq
      · exact Or.inl hlt
      · refine Or.inr ⟨heq, ?_⟩
        have hidxb : idx b'' = i := hidx i fb hfb b'' hbin
        rcases Nat.lt_or_ge (minIdxBy (fingerKeyAt getVal fs) fs.length) i
          with hlt2 | hge
        · exact Or.inl (by omega)
        · have hlt3 : i < minIdxBy (fingerKeyAt getVal fs) fs.length := by
            omega
          have := hleft i fb hfb hlt3 b'' hbin
          omega

/-! Section: Top-level `mergeBy` theorems -/

theorem map_remaining_mkFingerArray (arrays : List (List α)) :
    (arrays.map mkFingerArray).map remaining = arrays := by
  rw [List.map_map]
  have : remaining ∘ mkFingerArray = fun l : List α => l := by
    funext l
    simp [remaining, mkFingerArray]
  rw [this, List.map_id']

theorem totalRem_mkFingerArray (arrays : List (List α)) :
    totalRem (arrays.map mkFingerArray) = (arrays.map List.length).sum := by
  unfold totalRem
  rw [List.map_map]
  have hfun : ((fun fa : FingerArray α => (remaining fa).length) ∘ mkFingerArray)
      = List.length := by
    funext l
    simp [remaining, mkFingerArray]
  rw [hfun]

/-- Theorem: `mergeBy` emits exactly the input elements (wrapped in `some`), one
occurrence each, provided every input sequence is sorted by the key. -/
theorem mergeBy_perm (getVal : α → Int) (arrays : List (List α))
    (hsort : ∀ l ∈ arrays, SortedBy getVal l) :
    List.Perm (mergeBy getVal arrays) (arrays.flatten.map some) := by
  unfold mergeBy
  have h := mergeLoop_perm getVal ((arrays.map List.length).sum)
    (arrays.map mkFingerArray) (totalRem_mkFingerArray arrays).symm ?_
  · rwa [map_remaining_mkFingerArray] at h
  · intro fa hfa
    obtain ⟨l, hl, hfa'⟩ := List.mem_map.mp hfa
    subst hfa'
    have : remaining (mkFingerArray l) = l := by simp [remaining, mkFingerArray]
    rw [this]
    exact hsort l hl

/-- Theorem: `mergeBy` output is sorted ascending by the key. -/
theorem mergeBy_pairwise (getVal : α → Int) (arrays : List (List α))
    (hsort : ∀ l ∈ arrays, SortedBy getVal l) :
    (mergeBy getVal arrays).Pairwise (OptKeyLe getVal) := by
  unfold mergeBy
  apply mergeLoop_pairwise getVal ((arrays.map List.length).sum)
    (arrays.map mkFingerArray) (totalRem_mkFingerArray arrays).symm
  intro fa hfa
  obtain ⟨l, hl, hfa'⟩ := List.mem_map.mp hfa
  subst hfa'
  have : remaining (mkFingerArray l) = l := by simp [remaining, mkFingerArray]
  rw [this]
  exact hsort l hl

/-- Stable ordering of the `mergeBy` output. -/
theorem mergeBy_pairwise_refined (getVal pos : α → Int) (idx : α → Nat)
    (arrays : List (List α))
    (hsort : ∀ l ∈ arrays, SortedBy getVal l)
    (hpair : ∀ l ∈ arrays, l.Pairwise
      (fun a b => getVal a = getVal b → pos b < pos a))
    (hidx : ∀ i l, arrays.get? i = some l → ∀ a ∈ l, idx a = i) :
    (mergeBy getVal arrays).Pairwise (OptKeyRefined getVal pos idx) := by
  unfold mergeBy
  apply mergeLoop_pairwise_refined getVal pos idx ((arrays.map List.length).sum)
    (arrays.map mkFingerArray) (totalRem_mkFingerArray arrays).symm
  · intro fa hfa
    obtain ⟨l, hl, hfa'⟩ := List.mem_map.mp hfa
    subst hfa'
    have : remaining (mkFingerArray l) = l := by simp [remaining, mkFingerArray]
    rw [this]
    exact hsort l hl
  · intro fa hfa
    obtain ⟨l, hl, hfa'⟩ := List.mem_map.mp hfa
    subst hfa'
    have : remaining (mkFingerArray l) = l := by simp [remaining, mkFingerArray]
    rw [this]
    exact hpair l hl
  · intro i fa hifa a ha
    rw [List.get?_map] at hifa
    cases hg : arrays.get? i with
    | none => rw [hg] at hifa; simp at hifa
    | some l =>
      rw [hg] at hifa
      simp only [Option.map_some', Option.some.injEq] at hifa
      subst hifa
      have : remaining (mkFingerArray l) = l := by simp [remaining, mkFingerArray]
      rw [this] at ha
      exact hidx i l hg a ha

/-- The sentinel is never emitted. -/
theorem mergeBy_no_sentinel (getVal : α → Int) (arrays : List (List α))
    (hsort : ∀ l ∈ arrays, SortedBy getVal l) :
    Option.none ∉ mergeBy getVal arrays := by
  intro hmem
  have := (mergeBy_perm getVal arrays hsort).mem_iff.mp hmem
  obtain ⟨b, _, hb⟩ := List.mem_map.mp this
  exact Option.noConfusion hb

/-! Section: Claim C2: latch evaluation -/

/-- The reject disjunction of the claim, following its enumeration with
`M = F + P`, `T = F + P + R`: the fractional comparisons carry the source's
division semantics, under which `0 / 0` (`NaN`) compares false, expressed
here as the guard `T ≠ 0`. -/
def specRejectCond (sL : Bool) (L : ℚ) (F P R : Nat) : Prop :=
  (sL = false ∧ 1 ≤ L ∧ ((F + P : Nat) : ℚ) < L) ∨
  (sL = false ∧ L < 1 ∧ F + P + R ≠ 0 ∧
    ((F + P : Nat) : ℚ) / ((F + P + R : Nat) : ℚ) < L) ∨
  (sL = true ∧ 1 ≤ L ∧ ((F + P + R : Nat) : ℚ) < L) ∨
  (sL = true ∧ L < 1 ∧ F + P + R = 0)

/-- The fulfill disjunction of the claim, with `S = F + R`. -/
def specFulfillCond (sL : Bool) (L : ℚ) (F P R : Nat) : Prop :=
  (sL = false ∧ 1 ≤ L ∧ L ≤ ((F : Nat) : ℚ)) ∨
  (sL = false ∧ L < 1 ∧ F + P + R ≠ 0 ∧
    L ≤ ((F : Nat) : ℚ) / ((F + P + R : Nat) : ℚ)) ∨
  (sL = true ∧ 1 ≤ L ∧ L ≤ ((F + R : Nat) : ℚ)) ∨
  (sL = true ∧ L < 1 ∧ F + P + R ≠ 0 ∧
    L ≤ ((F + R : Nat) : ℚ) / ((F + P + R : Nat) : ℚ))

theorem rejectGuard_iff (sL : Bool) (L : ℚ) (F P R : Nat) :
    (((!sL && decide (1 ≤ L) && decide (((F + P : Nat) : ℚ) < L))
      || (!sL && decide (L < 1) && jsDivLt (F + P) (F + P + R) L)
      || (sL && decide (1 ≤ L) && decide (((F + P + R : Nat) : ℚ) < L))
      || (sL && decide (L < 1) && decide (F + P + R = 0))) = true)
    ↔ specRejectCond sL L F P R := by
  unfold jsDivLt specRejectCond
  by_cases h0 : F + P + R = 0 <;> cases sL <;> simp [h0] <;> tauto

theorem fulfillGuard_iff (sL : Bool) (L : ℚ) (F P R : Nat) :
    (((!sL && decide (1 ≤ L) && decide (((F : Nat) : ℚ) ≥ L))
      || (!sL && decide (L < 1) && jsDivGe F (F + P + R) L)
      || (sL && decide (1 ≤ L) && decide (((F + R : Nat) : ℚ) ≥ L))
      || (sL && decide (L < 1) && jsDivGe (F + R) (F + P + R) L)) = true)
    ↔ specFulfillCond sL L F P R := by
  unfold jsDivGe specFulfillCond
  by_cases h0 : F + P + R = 0
  · have hF : F = 0 := by omega
    have hP : P = 0 := by omega
    have hR : R = 0 := by omega
    subst hF
    subst hP
    subst hR
    cases sL <;> simp <;> tauto
  · cases sL <;> simp [h0, ge_iff_le] <;> tauto

/-- C2: while the resolver is unsettled, a latch evaluation settles the
publication as rejected exactly under the claim's reject disjunction, as
fulfilled exactly under the fulfill disjunction otherwise, and leaves it
pending when neither holds; the rejection value is the rejected-values list
and the fulfillment value is the fulfilled-values list, followed by the
rejected-values list under a settlement latch.  Division follows the
source's IEEE semantics (all `0/0` comparisons false), reflected in the
`T ≠ 0` guards of the fractional disjuncts. -/
theorem C2_evaluateLatch_matches_spec (V : Type) (r : ResolverState V)
    (o : Options) (h : r.settled = false) :
    (specRejectCond o.settlementLatch o.latch r.fulfilled r.pending r.rejected →
      evaluateLatch r o =
        (some (.rejectedWith r.rejectedValues), { r with settled := true })) ∧
    (¬ specRejectCond o.settlementLatch o.latch r.fulfilled r.pending r.rejected →
      specFulfillCond o.settlementLatch o.latch r.fulfilled r.pending r.rejected →
      evaluateLatch r o =
        (some (.fulfilledWith (if o.settlementLatch then
            r.fulfilledValues ++ r.rejectedValues else r.fulfilledValues)),
          { r with settled := true })) ∧
    (¬ specRejectCond o.settlementLatch o.latch r.fulfilled r.pending r.rejected →
      ¬ specFulfillCond o.settlementLatch o.latch r.fulfilled r.pending r.rejected →
      evaluateLatch r o = (none, r)) := by
  have hrej := rejectGuard_iff o.settlementLatch o.latch r.fulfilled r.pending
    r.rejected
  have hful := fulfillGuard_iff o.settlementLatch o.latch r.fulfilled r.pending
    r.rejected
  refine ⟨?_, ?_, ?_⟩
  · intro hspec
    unfold evaluateLatch
    rw [h]
    simp only [Bool.false_eq_true, if_false]
    rw [if_pos (hrej.mpr hspec)]
  · intro hnrej hspec
    unfold evaluateLatch
    rw [h]
    simp only [Bool.false_eq_true, if_false]
    rw [if_neg (fun hc => hnrej (hrej.mp hc)), if_pos (hful.mpr hspec)]
  · intro hnrej hnful
    unfold evaluateLatch
    rw [h]
    simp only [Bool.false_eq_true, if_false]
    rw [if_neg (fun hc => hnrej (hrej.mp hc)),
      if_neg (fun hc => hnful (hful.mp hc))]

/-- Witness for C2 at a concrete unsettled resolver: one fulfilled
subscriber against `latch = 1` fulfills with the fulfilled-values list. -/
theorem C2_evaluateLatch_matches_spec_witness :
    evaluateLatch (V := Unit) ⟨false, [], [], 1, 0, 0⟩
        { defaultOptions with latch := 1 } =
      (some (.fulfilledWith []), ⟨true, [], [], 1, 0, 0⟩) := by
  have h := (C2_evaluateLatch_matches_spec Unit ⟨false, [], [], 1, 0, 0⟩
    { defaultOptions with latch := 1 } rfl).2.1
    (by unfold specRejectCond; decide) (by unfold specFulfillCond; decide)
  simpa using h

/-! Section: Claim C1: what publish returns when async -/

/-- C1: with effective `sync = false` (the default), `publish` evaluates to
`undefined`, not to the publication future: `async` schedules the dispatcher
but has no `return` statement.  This contradicts the source's own
documentation (`@return {PublicationPromise}` on `publish`, and the README's
`Arbiter.publish(...).then(...)` example under default options). -/
theorem C1_publish_async_returns_undefined (V D F : Type)
    (st : ArbiterState D F) (topic : String) (data : D)
    (opts : OptionsOverride) (hsync : (merge st.options opts).sync = false) :
    (publishModel V st topic data opts).returned = none := by
  unfold publishModel
  simp only [hsync, Bool.false_eq_true, if_false, asyncReturn]

/-- Witness for C1: a default-options publish on a fresh broker returns
`undefined`. -/
theorem C1_publish_async_returns_undefined_witness :
    (merge (initialState Unit Unit).options {}).sync = false ∧
    (publishModel Unit (initialState Unit Unit) "a" () {}).returned = none :=
  ⟨rfl, C1_publish_async_returns_undefined Unit Unit Unit
    (initialState Unit Unit) "a" () {} rfl⟩

/-! Section: Claim C5: removePersisted by token -/

/-- C5: `removePersisted(token)` fails to remove an existing persisted
message that is not first in its node's list.  The node for `"x"` holds two
messages with orders `10` and `20`; the token designates order `20`, yet the
call returns `false` and leaves the tree unchanged, because
`binaryIndexBy(getId, ...)` probes the absent `id` property (`undefined`
comparisons are false), pinning the probe to index `0`, where the order is
`10`. -/
theorem C5_removePersisted_misses_second_message :
    (List.map PersistedMsg.order
        [(⟨"x", (), 10⟩ : PersistedMsg Unit), ⟨"x", (), 20⟩] = [10, 20]) ∧
    removePersistedModel
        (Node.mk "" [] [Node.mk "x" [] []
          [⟨"x", (), 10⟩, ⟨"x", (), 20⟩]] [] : Node Unit Unit)
        ⟨"x", 20⟩ =
      (false, Node.mk "" [] [Node.mk "x" [] []
        [⟨"x", (), 10⟩, ⟨"x", (), 20⟩]] []) := by
  constructor
  · rfl
  · rfl

/-! Section: Claim C7: the subscription invoker and declared arity -/

/-- C7: the invoker treats only declared length exactly `3` as node-style.
A subscriber of arity `4` that would use its `done` callback is instead
called with just `(data, topic)`; its attempt to call the absent `done` is a
`TypeError` converted into a rejection — not the claimed `done` routing.
For arity `3` the claimed routing holds: a truthy first argument rejects
with it, otherwise the future fulfills with the second argument. -/
theorem C7_invoker_arity :
    subscriptionInvoker
        (⟨4, fun _ _ => CallBehavior.callsDone (some 7) (some 1)⟩ :
          JSFunction Int Int Int) 0 "t" = .rejectedWith .typeError ∧
    subscriptionInvoker
        (⟨3, fun _ _ => CallBehavior.callsDone (some 7) (some 1)⟩ :
          JSFunction Int Int Int) 0 "t" = .rejectedWith (.user 7) ∧
    subscriptionInvoker
        (⟨3, fun _ _ => CallBehavior.callsDone none (some 5)⟩ :
          JSFunction Int Int Int) 0 "t" = .fulfilledWith (some 5) :=
  ⟨rfl, rfl, rfl⟩

/-! Section: Claim C9: per-call options never mutate the broker defaults -/

/-- C9: `subscribe`, `publish` and the (possibly deferred) dispatcher leave
the broker's options holder untouched — per-call overrides act only on the
freshly merged copy, whose fields come from the override when present and
from the broker defaults otherwise. -/
theorem C9_options_frame (V D F : Type) (st : ArbiterState D F)
    (topic : String) (fn : Option F) (data : D) (opts : OptionsOverride) :
    (subscribeModel st topic fn opts).state.options = st.options ∧
    (publishModel V st topic data opts).state.options = st.options ∧
    ((hierarchicalTopicDispatcher V st topic data (merge st.options opts)).2).options
      = st.options ∧
    (∀ q, opts.latch = some q → (merge st.options opts).latch = q) ∧
    (opts.latch = none → (merge st.options opts).latch = st.options.latch) ∧
    (∀ b, opts.sync = some b → (merge st.options opts).sync = b) ∧
    (opts.sync = none → (merge st.options opts).sync = st.options.sync) := by
  refine ⟨rfl, ?_, ?_, ?_, ?_, ?_, ?_⟩
  · unfold publishModel hierarchicalTopicDispatcher
    dsimp only
    split
    · split
      · rfl
      · rfl
    · rfl
  · unfold hierarchicalTopicDispatcher
    dsimp only
    split
    · rfl
    · rfl
  · intro q hq
    unfold merge
    simp [hq]
  · intro hq
    unfold merge
    simp [hq]
  · intro b hb
    unfold merge
    simp [hb]
  · intro hb
    unfold merge
    simp [hb]

/-- Witness for C9 at a concrete per-call override. -/
theorem C9_options_frame_witness :
    (merge (initialState Unit Unit).options { latch := some 2 }).latch = 2 :=
  (C9_options_frame Unit Unit Unit (initialState Unit Unit) "a" none ()
    { latch := some 2 }).2.2.2.1 2 rfl

/-! Section: Claim C10: correctness of the k-way merge -/

/-- C10: for input sequences each sorted ascending by the key projection
(whose values, as modelled integers, are all finite), `mergeBy` returns every
input element exactly once (wrapped in `some`), in ascending key order, and
never emits the exhausted-sequence sentinel. -/
theorem C10_mergeBy_correct (α : Type) (getVal : α → Int)
    (arrays : List (List α)) (hsort : ∀ l ∈ arrays, SortedBy getVal l) :
    List.Perm (mergeBy getVal arrays) (arrays.flatten.map some) ∧
    (mergeBy getVal arrays).Pairwise (OptKeyLe getVal) ∧
    Option.none ∉ mergeBy getVal arrays :=
  ⟨mergeBy_perm getVal arrays hsort, mergeBy_pairwise getVal arrays hsort,
    mergeBy_no_sentinel getVal arrays hsort⟩

/-- Witness for C10 on concrete sorted inputs. -/
theorem C10_mergeBy_correct_witness :
    List.Perm (mergeBy id [[1, 3], [2]]) ([[1, 3], [2]].flatten.map some) ∧
    (mergeBy id [[1, 3], [2]]).Pairwise (OptKeyLe id) ∧
    Option.none ∉ mergeBy id [[1, 3], [2]] :=
  C10_mergeBy_correct Int id [[1, 3], [2]] (by
    intro l hl
    unfold SortedBy
    rcases List.mem_cons.mp hl with h | h
    · subst h
      decide
    · rcases List.mem_cons.mp h with h2 | h2
      · subst h2
        decide
      · simp at h2)

/-! Section: Claim C3: zero subscribers under the default options -/

/-- C3 counterexample: a publish dispatched with the broker's default options
(`latch` just below `1`, `settlementLatch = false`) and an empty dispatch
list does not settle at all — in particular it is not rejected.  With
`settlementLatch = false` the `L<1 && T==0` rule never applies, and the
`0/0` (`NaN`) comparisons of the fractional rules are false. -/
theorem C3_counterexample :
    (hierarchicalTopicDispatcher Unit (initialState Unit Unit) "a" ()
        (merge defaultOptions {})).1.settlement = none ∧
    (hierarchicalTopicDispatcher Unit (initialState Unit Unit) "a" ()
        (merge defaultOptions {})).1.resolver.settled = false := by
  constructor
  · rfl
  · rfl

/-- C3 amended: for every publish dispatched with the broker's default
options whose dispatch list is empty (here: any topic on a fresh broker),
the publication future stays pending — the dispatcher's latch evaluation
settles nothing, neither rejecting nor fulfilling. -/
theorem C3_amended_zero_subscribers_pending (D : Type) (topic : String)
    (data : D) :
    (hierarchicalTopicDispatcher Unit (initialState D Unit) topic data
        (merge defaultOptions {})).1.settlement = none ∧
    (hierarchicalTopicDispatcher Unit (initialState D Unit) topic data
        (merge defaultOptions {})).1.resolver.settled = false := by
  have hlin : findLineage topic ((initialState D Unit).topics)
      = [createNode ""] := by
    simp [initialState, findLineage, findLineageGo, nodeSize, nodeSizeList,
      createNode, isAncestorTopic, Node.topic, Node.children,
      binaryIndexBy, binaryIndexGo]
  constructor <;>
    · unfold hierarchicalTopicDispatcher
      simp only [hlin]
      rfl

/-! Section: Claim C4: raising behavior of the facade -/

/-- C4 counterexample: an array of string topics is not a string, yet the
facade `subscribe` raises nothing for it — refuting "subscribe raises if and
only if its topic argument is not a string". -/
theorem C4_counterexample :
    jsTypeof (JSVal.arr [.str "a"]) ≠ "string" ∧
    subscribeRaises (.arr [.str "a"]) = false := by
  constructor
  · decide
  · decide

/-- C4 amended: `publish` raises exactly when its topic argument is not a
string; `subscribe` (with no replay reached, i.e. under `ignorePersisted` or
a fresh broker and a well-behaved callable subscriber) raises exactly when
its expanded topic expression contains a non-string element — so an array of
string topics raises nothing; every such error message contains the word
"string"; a non-callable subscriber is stored as the no-op placeholder; and
a subscriber that throws during dispatch yields a rejected invocation future
rather than an escaping exception. -/
theorem C4_amended_raises (t : JSVal) :
    (publishRaises t = true ↔ jsTypeof t ≠ "string") ∧
    (subscribeRaises t = true ↔ ∃ x ∈ expandTopics t, jsTypeof x ≠ "string") ∧
    List.IsInfix "string".toList subscribeErrorMessage.toList ∧
    List.IsInfix "string".toList publishErrorMessage.toList ∧
    (∀ (F : Type) (i : Int) (p : Option Int),
      (createSubscription i (none : Option F) p).fn = SubFn.noop) ∧
    (∀ (D V E : Type) (fn : JSFunction D V E) (d : D) (tp : String) (e : E),
      fn.length ≠ 3 → fn.call d tp = .throws e →
      subscriptionInvoker fn d tp = .rejectedWith (.user e)) := by
  refine ⟨?_, ?_, ?_, ?_, ?_, ?_⟩
  · simp [publishRaises]
  · simp [subscribeRaises, List.any_eq_true]
  · decide
  · decide
  · intro F i p
    rfl
  · intro D V E fn d tp e h3 hcall
    unfold subscriptionInvoker
    rw [if_neg h3, hcall]

/-- Witness for C4's amended claim at concrete inputs. -/
theorem C4_amended_raises_witness :
    subscriptionInvoker
        (⟨0, fun _ _ => CallBehavior.throws (5 : Int)⟩ : JSFunction Int Int Int)
        0 "t" = .rejectedWith (.user 5) :=
  (C4_amended_raises (JSVal.str "x")).2.2.2.2.2 Int Int Int
    ⟨0, fun _ _ => CallBehavior.throws 5⟩ 0 "t" 5 (by decide) rfl

/-! Section: Claim C6: launch order of the merged dispatch list -/

/-- C6 counterexample: two equal-priority subscriptions, id `0` at topic
`"a"` (registered first) and id `1` at `"a.b"`, dispatched by a publish to
`"a.b"`: the launch order is id `1` before id `0` — equal-priority
subscribers are not launched in registration order across lineage depths. -/
theorem C6_counterexample :
    (hierarchicalTopicDispatcher Unit
        (⟨Node.mk "" []
          [Node.mk "a" [⟨0, .noop, false, 5⟩]
            [Node.mk "a.b" [⟨1, .noop, false, 5⟩] [] []] []] [],
         defaultOptions, 2⟩ : ArbiterState Unit Unit)
        "a.b" () (merge defaultOptions {})).1.launched
      = [some ⟨1, .noop, false, 5⟩, some ⟨0, .noop, false, 5⟩] := by
  rfl

/-- The order in which the dispatcher launches two entries: strictly higher
priority first; between equal priorities, the deeper lineage node (larger
node index) first; within one node, registration order (ascending id). -/
def LaunchOrderRel (nodeIdx : Subscription F → Nat)
    (x y : Option (Subscription F)) : Prop :=
  ∀ a b, x = some a → y = some b →
    b.priority < a.priority ∨
      (b.priority = a.priority ∧
        (nodeIdx b < nodeIdx a ∨ (nodeIdx a = nodeIdx b ∧ a.id < b.id)))

/-- C6 amended: within one publish without `preventBubble`, the launch order
of the dispatch list (`launchOrder` of the priority merge of the lineage's
subscription lists; `hierarchicalTopicDispatcher` launches a semaphore-
bounded prefix of it in this order) launches exactly the non-suspended
subscriptions, in priority order from highest to lowest; within equal
priority, subscriptions of deeper lineage nodes launch before shallower
ones, and within the same node in registration order (ascending id).  The
hypotheses are the broker's storage invariants: each node's list is sorted
ascending by priority with ties stored newest-first (strictly descending
id), and `nodeIdx` names each subscription's position in the lineage. -/
theorem C6_amended_launch_order (F : Type)
    (lineage : List (List (Subscription F)))
    (nodeIdx : Subscription F → Nat)
    (hsort : ∀ l ∈ lineage, SortedBy Subscription.priority l)
    (hties : ∀ l ∈ lineage, l.Pairwise
      (fun a b => a.priority = b.priority → b.id < a.id))
    (hidx : ∀ i l, lineage.get? i = some l → ∀ s ∈ l, nodeIdx s = i) :
    List.Perm (launchOrder (mergeBy Subscription.priority lineage))
      ((lineage.flatten.filter (fun s => !s.suspended)).map some) ∧
    (launchOrder (mergeBy Subscription.priority lineage)).Pairwise
      (LaunchOrderRel nodeIdx) := by
  constructor
  · unfold launchOrder
    have h1 := mergeBy_perm Subscription.priority lineage hsort
    have h2 : List.Perm (mergeBy Subscription.priority lineage).reverse
        (lineage.flatten.map some) :=
      (List.reverse_perm _).trans h1
    have h3 := h2.filter
      (fun o => !(match o with | some s => s.suspended | none => false))
    refine h3.trans ?_
    rw [List.filter_map]
    rfl
  · have hm := mergeBy_pairwise_refined Subscription.priority Subscription.id
      nodeIdx lineage hsort hties hidx
    unfold launchOrder
    have hrev : (mergeBy Subscription.priority lineage).reverse.Pairwise
        (flip (OptKeyRefined Subscription.priority Subscription.id nodeIdx)) :=
      List.pairwise_reverse.mpr hm
    refine (hrev.filter _).imp ?_
    intro x y hxy a b hxa hyb
    have hr := hxy b a hyb hxa
    rcases hr with h | ⟨hpeq, h⟩
    · exact Or.inl h
    · refine Or.inr ⟨hpeq, ?_⟩
      rcases h with h | ⟨hieq, hid⟩
      · exact Or.inl h
      · exact Or.inr ⟨hieq.symm, hid⟩

/-- Witness for the amended C6 on a concrete two-level lineage. -/
theorem C6_amended_launch_order_witness :
    List.Perm
      (launchOrder (mergeBy Subscription.priority
        ([[⟨0, .noop, false, 5⟩], [⟨1, .noop, false, 5⟩]] :
          List (List (Subscription Unit)))))
      ((([[⟨0, .noop, false, 5⟩], [⟨1, .noop, false, 5⟩]] :
          List (List (Subscription Unit))).flatten.filter
        (fun s => !s.suspended)).map some) ∧
    (launchOrder (mergeBy Subscription.priority
        ([[⟨0, .noop, false, 5⟩], [⟨1, .noop, false, 5⟩]] :
          List (List (Subscription Unit))))).Pairwise
      (LaunchOrderRel (fun s => s.id.toNat)) := by
  apply C6_amended_launch_order Unit
    [[⟨0, .noop, false, 5⟩], [⟨1, .noop, false, 5⟩]] (fun s => s.id.toNat)
  · intro l hl
    rcases List.mem_cons.mp hl with h | h
    · subst h
      exact List.pairwise_singleton _ _
    · rcases List.mem_cons.mp h with h2 | h2
      · subst h2
        exact List.pairwise_singleton _ _
      · simp at h2
  · intro l hl
    rcases List.mem_cons.mp hl with h | h
    · subst h
      exact List.pairwise_singleton _ _
    · rcases List.mem_cons.mp h with h2 | h2
      · subst h2
        exact List.pairwise_singleton _ _
      · simp at h2
  · intro i l h s hs
    match i, h with
    | 0, h =>
      injection h with h
      subst h
      rcases List.mem_singleton.mp hs with h2
      subst h2
      rfl
    | 1, h =>
      injection h with h
      subst h
      rcases List.mem_singleton.mp hs with h2
      subst h2
      rfl
    | n+2, h => simp at h

/-! Section: Claim C8: persisted replay on subscribe -/

/-- The searching update and the pure search agree on the computed value:
applying `g` along the walk yields the same first component as applying `g`
to the node the search returns (the walk's branching never depends on
`g`). -/
theorem ancestorModifyGo_fst (g : Node D F → β × Node D F) (value : String) :
    ∀ (fuel : Nat) (tree : Node D F),
    (ancestorModifyGo g value fuel tree).1 =
      (g ((ancestorModifyGo (fun n => (n, n)) value fuel tree).1)).1 := by
  intro fuel
  induction fuel with
  | zero =>
    intro tree
    rfl
  | succ fuel ih =>
    intro tree
    simp only [ancestorModifyGo]
    by_cases ht : tree.topic = value
    · simp [ht]
    · simp only [ht, if_false]
      cases h1 : tree.children.get?
          (binaryIndexBy strLt Node.topic value tree.children) with
      | some child1 =>
        cases h0 : tree.children.get?
            (binaryIndexBy strLt Node.topic value tree.children - 1) with
        | some child0 =>
          dsimp only
          by_cases ha1 : isAncestorTopic value child1 = true
          · rw [if_pos ha1, if_pos ha1]
            exact ih child1
          · rw [if_neg ha1, if_neg ha1]
            by_cases ha0 : binaryIndexBy strLt Node.topic value tree.children ≠ 0
                ∧ isAncestorTopic value child0 = true
            · rw [if_pos ha0, if_pos ha0]
              exact ih child0
            · rw [if_neg ha0, if_neg ha0]
        | none =>
          dsimp only
          by_cases ha1 : isAncestorTopic value child1 = true
          · rw [if_pos ha1, if_pos ha1]
            exact ih child1
          · rw [if_neg ha1, if_neg ha1]
      | none =>
        cases h0 : tree.children.get?
            (binaryIndexBy strLt Node.topic value tree.children - 1) with
        | some child0 =>
          dsimp only
          by_cases ha0 : binaryIndexBy strLt Node.topic value tree.children ≠ 0
              ∧ isAncestorTopic value child0 = true
          · rw [if_pos ha0, if_pos ha0]
            exact ih child0
          · rw [if_neg ha0, if_neg ha0]
        | none => rfl

/-- Inserting a subscription at a node's root changes no persisted list in
its subtree. -/
theorem descendents_insertSub_persisted (sub : Subscription F) (n : Node D F) :
    (descendents (insertSub sub n)).map Node.persisted
      = (descendents n).map Node.persisted := by
  cases n with
  | mk t s c p =>
    simp [insertSub, descendents, Node.topic, Node.subscriptions,
      Node.children, Node.persisted]

/-- What `subscribe` replays, expressed through the search result. -/
theorem subscribeModel_delivered (st : ArbiterState D F) (topic : String)
    (fn : Option F) (opts : OptionsOverride) :
    (subscribeModel st topic fn opts).delivered =
      (addTopicLineWith
        (atTerminal
          (createSubscription st.nextId fn (merge st.options opts).priority)
          (merge st.options opts).ignorePersisted)
        topic (ancestorTopicSearch topic st.topics)).1 := by
  unfold subscribeModel ancestorTopicSearch ancestorModify
  dsimp only
  exact ancestorModifyGo_fst _ _ _ _

/-- C8: when the subscribed topic's node exists, subscribing with effective
`ignorePersisted = false` delivers, during the call, exactly the persisted
messages stored at that node and its descendants — each exactly once, in
strictly ascending `order` — and with `ignorePersisted = true` delivers
nothing.  The hypotheses are the broker's storage invariants: per-node
persisted lists sorted ascending by `order` (they are appended with a
monotonic generator) and globally distinct orders. -/
theorem C8_subscribe_replay (D F : Type) (st : ArbiterState D F)
    (topic : String) (fn : Option F) (opts : OptionsOverride)
    (hnode : (ancestorTopicSearch topic st.topics).topic = topic)
    (hsort : ∀ nd ∈ descendents (ancestorTopicSearch topic st.topics),
      SortedBy PersistedMsg.order nd.persisted)
    (hdistinct : (((descendents (ancestorTopicSearch topic st.topics)).map
        Node.persisted).flatten).Pairwise
          (fun m1 m2 => m1.order ≠ m2.order)) :
    ((merge st.options opts).ignorePersisted = false →
      List.Perm (subscribeModel st topic fn opts).delivered
        ((((descendents (ancestorTopicSearch topic st.topics)).map
          Node.persisted).flatten).map some) ∧
      (subscribeModel st topic fn opts).delivered.Pairwise
        (fun x y => ∀ m1 m2, x = some m1 → y = some m2 →
          m1.order < m2.order)) ∧
    ((merge st.options opts).ignorePersisted = true →
      (subscribeModel st topic fn opts).delivered = []) := by
  have hdel := subscribeModel_delivered st topic fn opts
  rw [addTopicLineWith, if_pos hnode] at hdel
  simp only [atTerminal] at hdel
  rw [replayOf] at hdel
  constructor
  · intro hig
    rw [hig] at hdel
    simp only [Bool.false_eq_true, if_false] at hdel
    rw [descendents_insertSub_persisted] at hdel
    have hsortmap : ∀ l ∈ (descendents
        (ancestorTopicSearch topic st.topics)).map Node.persisted,
        SortedBy PersistedMsg.order l := by
      intro l hl
      obtain ⟨nd, hnd, hl'⟩ := List.mem_map.mp hl
      subst hl'
      exact hsort nd hnd
    have hperm := mergeBy_perm PersistedMsg.order _ hsortmap
    have hpw := mergeBy_pairwise PersistedMsg.order _ hsortmap
    rw [← hdel] at hperm hpw
    refine ⟨hperm, ?_⟩
    have hsymm : Symmetric (fun x y : Option (PersistedMsg D) =>
        ∀ m1 m2, x = some m1 → y = some m2 → m1.order ≠ m2.order) := by
      intro x y h m1 m2 hy hx
      exact (h m2 m1 hx hy).symm
    have hne : ((((descendents (ancestorTopicSearch topic st.topics)).map
        Node.persisted).flatten).map some).Pairwise
        (fun x y : Option (PersistedMsg D) =>
          ∀ m1 m2, x = some m1 → y = some m2 → m1.order ≠ m2.order) := by
      rw [List.pairwise_map]
      refine hdistinct.imp ?_
      intro a b hab m1 m2 h1 h2
      injection h1 with h1
      injection h2 with h2
      subst h1
      subst h2
      exact hab
    have hne2 := (hperm.pairwise_iff (fun h => hsymm h)).mpr hne
    refine (hpw.and hne2).imp ?_
    intro x y hxy m1 m2 h1 h2
    exact lt_of_le_of_ne (hxy.1 m1 m2 h1 h2) (hxy.2 m1 m2 h1 h2)
  · intro hig
    rw [hig] at hdel
    simpa using hdel

/-- Witness for C8: subscribing to the root of a fresh broker (whose node
exists and has no persisted messages) delivers nothing, vacuously in
order. -/
theorem C8_subscribe_replay_witness :
    List.Perm (subscribeModel (initialState Unit Unit) "" none {}).delivered
      ((((descendents (ancestorTopicSearch ""
        (initialState Unit Unit).topics)).map
          Node.persisted).flatten).map some) ∧
    (subscribeModel (initialState Unit Unit) "" none {}).delivered.Pairwise
      (fun x y => ∀ m1 m2, x = some m1 → y = some m2 →
        m1.order < m2.order) := by
  refine (C8_subscribe_replay Unit Unit (initialState Unit Unit) "" none {}
    rfl ?_ ?_).1 rfl
  · intro nd hnd
    have hnd2 : nd ∈ [createNode ""] := hnd
    rcases List.mem_singleton.mp hnd2 with h
    subst h
    exact List.Pairwise.nil
  · exact List.Pairwise.nil

/-! Section: the storage invariants assumed above are maintained by the code.
The dispatch-order and replay theorems take as hypotheses that each node's
subscription list is sorted ascending by priority with equal-priority ties
stored newest-first, and that each node's persisted list is sorted ascending
by order. The following lemmas show that the source's own mutators (`insert`
via `binaryIndexBy`, and the persisted push) establish and preserve exactly
these invariants, so the hypotheses describe every reachable broker state. -/

theorem pairwise_get? {R : α → α → Prop} {l : List α} (h : l.Pairwise R)
    {i j : Nat} {a b : α} (hij : i < j) (hi : l.get? i = some a)
    (hj : l.get? j = some b) : R a b := by
  have hil : i < l.length := get?_some_lt hi
  have hjl : j < l.length := get?_some_lt hj
  rw [List.get?_eq_get hil] at hi
  rw [List.get?_eq_get hjl] at hj
  have := (List.pairwise_iff_get.mp h) ⟨i, hil⟩ ⟨j, hjl⟩ hij
  rw [Option.some.injEq] at hi hj
  rw [← hi, ← hj]
  exact this

theorem mem_take_get? {l : List α} {i : Nat} {a : α} (h : a ∈ l.take i) :
    ∃ j, j < i ∧ l.get? j = some a := by
  induction l generalizing i with
  | nil => simp at h
  | cons x xs ih =>
    cases i with
    | zero => simp at h
    | succ m =>
      rw [List.take_succ_cons, List.mem_cons] at h
      rcases h with h | h
      · exact ⟨0, Nat.succ_pos m, by rw [h]; rfl⟩
      · rcases ih h with ⟨j, hj, hget⟩
        exact ⟨j + 1, Nat.succ_lt_succ hj, hget⟩

theorem mem_drop_get? {l : List α} {i : Nat} {a : α} (h : a ∈ l.drop i) :
    ∃ j, i ≤ j ∧ l.get? j = some a := by
  induction i generalizing l with
  | zero =>
    rcases List.mem_iff_get?.mp (by simpa using h) with ⟨j, hj⟩
    exact ⟨j, Nat.zero_le j, hj⟩
  | succ m ih =>
    cases l with
    | nil => simp at h
    | cons x xs =>
      rcases ih (by simpa using h) with ⟨j, hj, hget⟩
      exact ⟨j + 1, Nat.succ_le_succ hj, hget⟩

/-- Lower-bound property of the source's binary search on an integer-keyed
sorted list: every index left of the result holds a key strictly below the
probe and every index at or right of it holds a key at or above the probe,
provided those properties hold outside the initial window and the fuel covers
the window. This is the loop invariant of `binaryIndexBy`'s `while`. -/
theorem binaryIndexGo_spec (getValue : α → Int) (v : Int) (l : List α)
    (hsorted : SortedBy getValue l) :
    ∀ (fuel low high : Nat), low ≤ high → high ≤ l.length →
    high - low ≤ fuel →
    (∀ j a, j < low → l.get? j = some a → getValue a < v) →
    (∀ j a, high ≤ j → l.get? j = some a → ¬ getValue a < v) →
    low ≤ binaryIndexGo intLt getValue v l fuel low high ∧
    binaryIndexGo intLt getValue v l fuel low high ≤ high ∧
    (∀ j a, j < binaryIndexGo intLt getValue v l fuel low high →
      l.get? j = some a → getValue a < v) ∧
    (∀ j a, binaryIndexGo intLt getValue v l fuel low high ≤ j →
      l.get? j = some a → ¬ getValue a < v) := by
  intro fuel
  induction fuel with
  | zero =>
    intro low high hlh hhl hfuel hpre hsuf
    have heq : low = high := by omega
    subst heq
    exact ⟨Nat.le_refl low, Nat.le_refl low, hpre, hsuf⟩
  | succ fuel ih =>
    intro low high hlh hhl hfuel hpre hsuf
    by_cases hlt : low < high
    · have hmid1 : low ≤ (low + high) / 2 := by omega
      have hmid2 : (low + high) / 2 < high := by omega
      rcases get?_lt_length (Nat.lt_of_lt_of_le hmid2 hhl) with ⟨elem, helem⟩
      have hstep : binaryIndexGo intLt getValue v l (fuel + 1) low high =
          if intLt (getValue elem) v then
            binaryIndexGo intLt getValue v l fuel ((low + high) / 2 + 1) high
          else
            binaryIndexGo intLt getValue v l fuel low ((low + high) / 2) := by
        simp only [binaryIndexGo]
        rw [if_pos hlt, helem]
      rw [hstep]
      cases hcmp : intLt (getValue elem) v with
      | true =>
        simp only [if_true]
        have helt : getValue elem < v := by
          simpa [intLt] using hcmp
        have hpre2 : ∀ j a, j < (low + high) / 2 + 1 → l.get? j = some a →
            getValue a < v := by
          intro j a hj hget
          by_cases hjlow : j < low
          · exact hpre j a hjlow hget
          · rcases Nat.lt_or_ge j ((low + high) / 2) with hjm | hjm
            · have hle := pairwise_get? hsorted hjm hget helem
              exact lt_of_le_of_lt hle helt
            · have hje : j = (low + high) / 2 := by omega
              subst hje
              rw [hget] at helem
              rw [Option.some.injEq] at helem
              rw [helem]
              exact helt
        have := ih ((low + high) / 2 + 1) high (by omega) hhl (by omega)
          hpre2 hsuf
        exact ⟨by omega, this.2.1, this.2.2.1, this.2.2.2⟩
      | false =>
        simp only [Bool.false_eq_true, if_false]
        have hnlt : ¬ getValue elem < v := by
          simpa [intLt] using hcmp
        have hsuf2 : ∀ j a, (low + high) / 2 ≤ j → l.get? j = some a →
            ¬ getValue a < v := by
          intro j a hj hget
          by_cases hjhigh : high ≤ j
          · exact hsuf j a hjhigh hget
          · rcases Nat.lt_or_ge ((low + high) / 2) j with hjm | hjm
            · have hle := pairwise_get? hsorted hjm helem hget
              omega
            · have hje : j = (low + high) / 2 := by omega
              subst hje
              rw [hget] at helem
              rw [Option.some.injEq] at helem
              rw [helem]
              exact hnlt
        have := ih low ((low + high) / 2) hmid1
          (Nat.le_of_lt (Nat.lt_of_lt_of_le hmid2 hhl)) (by omega) hpre hsuf2
        exact ⟨this.1, by omega, this.2.2.1, fun j a hj hget =>
          this.2.2.2 j a hj hget⟩
    · have heq : low = high := by omega
      subst heq
      have hres : binaryIndexGo intLt getValue v l (fuel + 1) low low = low := by
        simp only [binaryIndexGo]
        rw [if_neg hlt]
      rw [hres]
      exact ⟨Nat.le_refl low, Nat.le_refl low, hpre, hsuf⟩

/-- Lower-bound property of the source's `binaryIndexBy` on a sorted
integer-keyed list: it returns the first index whose key is at or above the
probe, so keys strictly below the probe lie exactly left of the result. -/
theorem binaryIndexBy_spec (getValue : α → Int) (v : Int) (l : List α)
    (hsorted : SortedBy getValue l) :
    binaryIndexBy intLt getValue v l ≤ l.length ∧
    (∀ j a, j < binaryIndexBy intLt getValue v l → l.get? j = some a →
      getValue a < v) ∧
    (∀ j a, binaryIndexBy intLt getValue v l ≤ j → l.get? j = some a →
      ¬ getValue a < v) := by
  have := binaryIndexGo_spec getValue v l hsorted l.length 0 l.length
    (Nat.zero_le _) (Nat.le_refl _) (by omega)
    (fun j a hj _ => absurd hj (Nat.not_lt_zero j))
    (fun j a hj hget => absurd (get?_some_lt hget) (by omega))
  exact ⟨this.2.1, this.2.2.1, this.2.2.2⟩

/-- Theorem: the source's `insert` maintains both storage invariants of a
node's subscription list that the launch-order and replay theorems assume.
If the list is sorted ascending by priority, equal-priority neighbours hold
descending ids (newest first), and the incoming subscription's id is fresher
than every stored id — which the monotonically increasing id generator
guarantees — then the spliced list satisfies both properties again. In
particular the lower-bound splice puts the newcomer in front of its
equal-priority peers, which is what makes equal-priority merge ties resolve
as they do in the dispatch-order theorems. -/
theorem insertOrdered_invariants (F : Type) (sub : Subscription F)
    (l : List (Subscription F))
    (hsorted : SortedBy Subscription.priority l)
    (hties : l.Pairwise fun a b => a.priority = b.priority → b.id < a.id)
    (hid : ∀ s ∈ l, s.id < sub.id) :
    SortedBy Subscription.priority
      (insertOrdered intLt Subscription.priority sub l) ∧
    (insertOrdered intLt Subscription.priority sub l).Pairwise
      (fun a b => a.priority = b.priority → b.id < a.id) := by
  obtain ⟨hlen, hpre, hsuf⟩ :=
    binaryIndexBy_spec Subscription.priority sub.priority l hsorted
  have htake : ∀ a ∈ l.take (binaryIndexBy intLt Subscription.priority
      sub.priority l), a.priority < sub.priority := by
    intro a ha
    rcases mem_take_get? ha with ⟨j, hj, hget⟩
    exact hpre j a hj hget
  have hdrop : ∀ a ∈ l.drop (binaryIndexBy intLt Subscription.priority
      sub.priority l), sub.priority ≤ a.priority := by
    intro a ha
    rcases mem_drop_get? ha with ⟨j, hj, hget⟩
    have := hsuf j a hj hget
    omega
  have hsplit : l = l.take (binaryIndexBy intLt Subscription.priority
      sub.priority l) ++ l.drop (binaryIndexBy intLt Subscription.priority
      sub.priority l) := (List.take_append_drop _ l).symm
  have hshow : insertOrdered intLt Subscription.priority sub l =
      l.take (binaryIndexBy intLt Subscription.priority sub.priority l) ++
      sub :: l.drop (binaryIndexBy intLt Subscription.priority
        sub.priority l) := rfl
  rw [hshow]
  constructor
  · rw [hsplit] at hsorted
    rw [SortedBy, List.pairwise_append] at hsorted ⊢
    refine ⟨hsorted.1, ?_, ?_⟩
    · rw [List.pairwise_cons]
      exact ⟨fun b hb => hdrop b hb, hsorted.2.1⟩
    · intro a ha b hb
      rw [List.mem_cons] at hb
      rcases hb with hb | hb
      · subst hb
        exact le_of_lt (htake a ha)
      · exact hsorted.2.2 a ha b hb
  · rw [hsplit] at hties
    rw [List.pairwise_append] at hties ⊢
    refine ⟨hties.1, ?_, ?_⟩
    · rw [List.pairwise_cons]
      refine ⟨fun b hb _ => ?_, hties.2.1⟩
      exact hid b (List.mem_of_mem_drop hb)
    · intro a ha b hb
      rw [List.mem_cons] at hb
      rcases hb with hb | hb
      · subst hb
        intro hpeq
        exact absurd hpeq (ne_of_lt (htake a ha))
      · exact hties.2.2 a ha b hb

/-- Theorem: appending a freshly ordered persisted message keeps a node's
persisted list sorted ascending by order, the invariant the replay theorem
assumes. The publish path always persists with an order drawn from the same
monotonically increasing generator, so the freshness hypothesis holds on
every reachable broker. -/
theorem pushPersisted_sorted (D F : Type) (msg : PersistedMsg D)
    (n : Node D F) (hsorted : SortedBy PersistedMsg.order n.persisted)
    (hfresh : ∀ m ∈ n.persisted, m.order < msg.order) :
    SortedBy PersistedMsg.order (pushPersisted msg n).persisted := by
  have hshow : (pushPersisted msg n).persisted = n.persisted ++ [msg] := rfl
  rw [hshow, SortedBy, List.pairwise_append]
  refine ⟨hsorted, List.pairwise_singleton _ _, ?_⟩
  intro a ha b hb
  rw [List.mem_singleton] at hb
  subst hb
  exact le_of_lt (hfresh a ha)

end PromissoryArbiter
